import Mathlib

/-!
Verification of the auto-correct capitalization engine (Obsidian plugin).

This file gives a shallow embedding of the canonical revision of the engine
(the most complete revision of `main.ts`, the one carrying the abbreviation
set and the case-folded exclusion set), and proves or refutes the frozen
claims about it.

Modelling conventions:
* A document is a list of lines; a line is a `List Char`.  Column offsets are
  0-based indices into the line, as in the source (`ch` coordinates).
* JavaScript string case mapping is modelled over the character repertoire the
  source actually manipulates (ASCII, the German umlauts and sharp s, the
  apostrophe): `toUpperCase`/`toLowerCase` of a one-character string are
  `toUpperStr`/`toLowerStr`.  Following ECMAScript, the uppercase of the sharp
  s is the two-character string SS; every lowercase mapping used here is a
  single character.  Characters outside this repertoire are modelled as
  caseless, which is exact for all inputs considered in the theorems below.
* JavaScript regexes are embedded as explicit scanners whose semantics are
  derived from the regex engine's leftmost-greedy matching; the derivation is
  documented at each scanner.
* The plugin object's mutable fields (`_suppressChangeEvent`,
  `_lookedForProtectedBlock`, `_isInProtectedBlock`) together with the
  document become an explicit `EditorState` record threaded through the
  functions; `doc.replaceRange` paired with the flag assignment just before it
  becomes `issueReplace`, which also counts replacements so that the echo
  discipline can be stated.
-/

/-- Characters of a string literal, the working representation of JS strings. -/
def str (s : String) : List Char := s.data

/-- ASCII uppercase letter A-Z. -/
def isAsciiUpper (c : Char) : Bool := 65 ≤ c.toNat && c.toNat ≤ 90

/-- ASCII lowercase letter a-z. -/
def isAsciiLower (c : Char) : Bool := 97 ≤ c.toNat && c.toNat ≤ 122

/-- ASCII digit 0-9. -/
def isDigitCh (c : Char) : Bool := 48 ≤ c.toNat && c.toNat ≤ 57

/-- Uppercase of a one-character JS string (`c.toUpperCase()`).  Lowercase
ASCII and umlauts map up; the sharp s maps to the two-character SS, as in
ECMAScript full case mapping; everything else is returned unchanged. -/
def toUpperStr (c : Char) : List Char :=
  if isAsciiLower c then [Char.ofNat (c.toNat - 32)]
  else if c = 'ä' then ['Ä']
  else if c = 'ö' then ['Ö']
  else if c = 'ü' then ['Ü']
  else if c = 'ß' then ['S', 'S']
  else [c]

/-- Lowercase of one character (`c.toLowerCase()`); all mappings used by the
source are single characters, so this returns a `Char`. -/
def toLowerChar (c : Char) : Char :=
  if isAsciiUpper c then Char.ofNat (c.toNat + 32)
  else if c = 'Ä' then 'ä'
  else if c = 'Ö' then 'ö'
  else if c = 'Ü' then 'ü'
  else c

/-- Lowercase of a one-character JS string, as a string. -/
def toLowerStr (c : Char) : List Char := [toLowerChar c]

/-- Models the JS test `ch === ch.toUpperCase()` on a one-character string. -/
def jsEqUpper (c : Char) : Bool := toUpperStr c == [c]

/-- Models the JS test `ch === ch.toLowerCase()` on a one-character string. -/
def jsEqLower (c : Char) : Bool := toLowerStr c == [c]

/-- `w.toLowerCase()` on a whole string. -/
def jsToLower (w : List Char) : List Char := (w.map toLowerStr).flatten

/-- Letters of the modelled repertoire: stands in for the regex class
`\p{L}\p{M}` (combining marks do not occur in the repertoire). -/
def isLetterCh (c : Char) : Bool :=
  isAsciiUpper c || isAsciiLower c ||
    c = 'Ä' || c = 'ä' || c = 'Ö' || c = 'ö' || c = 'Ü' || c = 'ü' || c = 'ß'

/-- The last-word regex character class from the source,
the set matched by one character of `[\p{L}\p{M}']+`. -/
def isWordCh (c : Char) : Bool := isLetterCh c || c = '\''

/-- JS `\w`: `[A-Za-z0-9_]`.  Note that non-ASCII letters are NOT `\w`, even
under the `u` flag; this drives the behaviour of the `(?=\W*$)` lookahead. -/
def isJsWordCh (c : Char) : Bool :=
  isAsciiUpper c || isAsciiLower c || isDigitCh c || c = '_'

/-- Whitespace, for `trim`, `\s` and split-on-whitespace (lines hold no
newlines, so space and tab suffice). -/
def isSpaceCh (c : Char) : Bool := c = ' ' || c = '\t'

/-- The lowercase class of the sentence regex, `[a-zäöüß]`. -/
def isSentLower (c : Char) : Bool :=
  isAsciiLower c || c = 'ä' || c = 'ö' || c = 'ü' || c = 'ß'

/-- The alphabetic test of the sentence rule, `[A-Za-zÄÖÜäöüß]`. -/
def isSentAlpha (c : Char) : Bool :=
  isAsciiUpper c || isAsciiLower c ||
    c = 'Ä' || c = 'Ö' || c = 'Ü' || c = 'ä' || c = 'ö' || c = 'ü' || c = 'ß'

/-- Sentence terminators `[.!?]`. -/
def isTerminator (c : Char) : Bool := c = '.' || c = '!' || c = '?'

/-- JS `String.prototype.trim` on a line. -/
def jsTrim (l : List Char) : List Char :=
  ((l.dropWhile isSpaceCh).reverse.dropWhile isSpaceCh).reverse

/-- JS `String.prototype.trimEnd`. -/
def jsTrimEnd (l : List Char) : List Char :=
  (l.reverse.dropWhile isSpaceCh).reverse

/-- TRIGGER_CHARS from the source: the punctuation/whitespace characters whose
typing fires a correction pass (the braces are written via their code points). -/
def TRIGGER_CHARS : List Char :=
  [' ', '.', ',', ';', ':', '!', '?', Char.ofNat 123, '"', ')', ']', '%',
    Char.ofNat 125]

/-- Plugin settings (the canonical revision: exclusion list, both toggles and
the abbreviation list). -/
structure Settings where
  exclusionList : List (List Char)
  capitalizeListItem : Bool
  capitalizeSentences : Bool
  abbreviations : List (List Char)
deriving Repr, DecidableEq

/-- DEFAULT_SETTINGS of the canonical revision. -/
def DEFAULT_SETTINGS : Settings :=
  { exclusionList := []
    capitalizeListItem := false
    capitalizeSentences := false
    abbreviations := [str ("e.g."), str ("i.e."), str ("etc."), str ("vs.")] }

/-- Membership in `exclusionSet` (`has(word.toLowerCase())` against the set of
lowercased exclusion words). -/
def inExclusion (st : Settings) (w : List Char) : Bool :=
  (st.exclusionList.map jsToLower).contains (jsToLower w)

/-- Membership in `abbreviationsSet`. -/
def inAbbreviations (st : Settings) (w : List Char) : Bool :=
  (st.abbreviations.map jsToLower).contains (jsToLower w)

/-- A document: the host buffer's lines. -/
abbrev Document : Type := List (List Char)

/-- `doc.getLine(n)` with an out-of-range read giving the empty line. -/
def getLineD (d : Document) (n : Nat) : List Char := (List.getD d n [])

/-- Line starts with three backticks: one match of `/^```/gm` (no trimming). -/
def hasCodeFence (l : List Char) : Bool := l.take 3 == str ("```")

/-- Line starts with `$$`: one match of the math-fence regex (no trimming). -/
def hasMathFence (l : List Char) : Bool := l.take 2 == str ("$$")

/-- Number of lines strictly above `lineNo` that literally start with three
backticks, i.e. the match count of `/^```/gm` on
`getRange((0,0),(lineNo,0))`. -/
def fenceCountCode (d : Document) (lineNo : Nat) : Nat :=
  (List.take lineNo d).countP hasCodeFence

/-- Math-fence analogue of `fenceCountCode`. -/
def fenceCountMath (d : Document) (lineNo : Nat) : Nat :=
  (List.take lineNo d).countP hasMathFence

/-- Unescaped occurrences of `mark` in `cs` given the character just before
`cs` (position 0 counts when `prev` is `none`): one step of the inline loop
`line[i] === mark && (i === 0 || line[i-1] !== BACKSLASH)`. -/
def unescCount (mark : Char) : Option Char → List Char → Nat
  | _, [] => 0
  | prev, c :: rest =>
      (if c = mark && !(prev == some '\\') then 1 else 0) +
        unescCount mark (some c) rest

/-- Unescaped occurrences of `mark` at positions strictly below `pos`
(the loop runs while `i < pos && i < line.length`). -/
def unescBelow (mark : Char) (l : List Char) (pos : Nat) : Nat :=
  unescCount mark none (l.take pos)

/-- The YAML front-matter branch of `isInProtectedBlock`: first line trims to
`---`, and either no closing `---` occurs strictly above `lineNo` or `lineNo`
is at or before the closing line found. -/
def frontmatterProtected (d : Document) (lineNo : Nat) : Bool :=
  if jsTrim (getLineD d 0) == str ("---") then
    match (List.range' 1 (lineNo - 1)).find?
        (fun i => jsTrim (getLineD d i) == str ("---")) with
    | none => true
    | some f => decide (lineNo ≤ f)
  else false

/-- The uncached body of `isInProtectedBlock`: front-matter, then fenced code
and math parity over the lines strictly above, then unescaped inline backtick
and dollar parity on the target line below `pos`. -/
def computeProtected (d : Document) (lineNo : Nat) (pos : Nat) : Bool :=
  if frontmatterProtected d lineNo then true
  else if fenceCountCode d lineNo % 2 ≠ 0 then true
  else if fenceCountMath d lineNo % 2 ≠ 0 then true
  else
    unescBelow (Char.ofNat 96) (getLineD d lineNo) pos % 2 ≠ 0 ||
      unescBelow '$' (getLineD d lineNo) pos % 2 ≠ 0

/-- The mutable plugin/editor state visible to the correction pipeline: the
buffer, the two memoization fields of the protected-block check, the
suppression flag, and a count of replacements issued so far (the number of
`replaceRange` calls, used to reason about echo notifications). -/
structure EditorState where
  doc : Document
  cacheSet : Bool
  cacheVal : Bool
  suppress : Bool
  reps : Nat
deriving Repr, DecidableEq

/-- Fresh state over a document, as after loading: no cache, no suppression. -/
def initState (d : Document) : EditorState :=
  { doc := d, cacheSet := false, cacheVal := false, suppress := false,
    reps := 0 }

/-- `isInProtectedBlock(editor, pos, lineNo)` including its memoization: if the
cache is populated the cached verdict is returned unchanged; otherwise the
uncached computation runs and is stored. -/
def isInProtectedBlockCall (s : EditorState) (pos : Nat) (lineNo : Nat) :
    Bool × EditorState :=
  if s.cacheSet then (s.cacheVal, s)
  else
    (computeProtected s.doc lineNo pos,
      { s with cacheSet := true, cacheVal := computeProtected s.doc lineNo pos })

/-- `take before it, insert, drop after it`: the effect of
`replaceRange(txt, (n,a), (n,b))` on the single line it addresses. -/
def replaceSeg (l : List Char) (a b : Nat) (txt : List Char) : List Char :=
  l.take a ++ txt ++ l.drop b

/-- The paired statement `this._suppressChangeEvent = true; doc.replaceRange(...)`
from the source: sets the suppression flag, performs the replacement inside
line `lineNo`, and counts the replacement. -/
def issueReplace (s : EditorState) (lineNo a b : Nat) (txt : List Char) :
    EditorState :=
  { s with
    suppress := true
    reps := s.reps + 1
    doc := s.doc.set lineNo (replaceSeg (getLineD s.doc lineNo) a b txt) }

/-- Does `w` occur in `l` starting at index `i`?  (Whole-string comparison, as
`indexOf`/`lastIndexOf` use.) -/
def matchesAt (l w : List Char) (i : Nat) : Bool := (l.drop i).take w.length == w

/-- JS `l.indexOf(w, start)`: the first occurrence at index at least `start`,
`none` standing for -1. -/
def indexOfFrom (l w : List Char) (start : Nat) : Option Nat :=
  (List.range (l.length + 1)).find? (fun i => decide (start ≤ i) && matchesAt l w i)

/-- JS `l.indexOf(w)` at the call sites where the occurrence is known to
exist (the word was cut out of `l`); the default 0 is never reached there. -/
def indexOfD (l w : List Char) : Nat := (indexOfFrom l w 0).getD 0

/-- Downward scan for `lastIndexOf`: the largest index at most `k` where `w`
occurs in `l`. -/
def lastIndexAux (l w : List Char) : Nat → Option Nat
  | 0 => if matchesAt l w 0 then some 0 else none
  | k + 1 => if matchesAt l w (k + 1) then some (k + 1) else lastIndexAux l w k

/-- JS `l.lastIndexOf(w)`, `none` standing for -1. -/
def lastIndexOfOpt (l w : List Char) : Option Nat := lastIndexAux l w l.length

/-- First index after which every character of the line is JS `\W`; the
`(?=\W*$)` lookahead of the last-word regex succeeds exactly at positions at
or beyond this index. -/
def wqIndex (l : List Char) : Nat :=
  l.length - (l.reverse.takeWhile (fun c => !isJsWordCh c)).length

/-- End of the maximal word-character run starting at `p`. -/
def runEndAt (l : List Char) (p : Nat) : Nat :=
  p + ((l.drop p).takeWhile isWordCh).length

/-- The span matched by `/[\p{L}\p{M}']+(?=\W*$)/u`.  The regex engine takes
the leftmost start `p` whose greedy run of class characters satisfies the
lookahead, i.e. the first maximal word-character run whose end reaches
`wqIndex` (all characters from there on being `\W`); the match is then that
whole run. -/
def lastWordSpan (l : List Char) : Option (Nat × Nat) :=
  match (List.range l.length).find?
      (fun p => isWordCh (l.getD p ' ') && decide (wqIndex l ≤ runEndAt l p)) with
  | none => none
  | some p => some (p, runEndAt l p)

/-- `line.match(LAST_WORD_REGEX)`: the matched word, if any. -/
def lastWordOf (l : List Char) : Option (List Char) :=
  (lastWordSpan l).map (fun pe => (l.drop pe.1).take (pe.2 - pe.1))

/-- `word[0] !== word[0].toUpperCase()`: the first-letter capitalization is
needed (the "primary" correction of the list-item rule). -/
def listPrimaryCond (w : List Char) : Bool := !(jsEqUpper (w.getD 0 ' '))

/-- The double-capital pattern: length at least 3, first two characters equal
to their uppercase, third equal to its lowercase (the "secondary" correction
of the list-item rule, and the firing condition of the word rule). -/
def listSecondaryCond (w : List Char) : Bool :=
  decide (3 ≤ w.length) && jsEqUpper (w.getD 0 ' ') &&
    jsEqUpper (w.getD 1 ' ') && jsEqLower (w.getD 2 ' ')

/-- `line.match(/^[-*] (\S+)/)`: bullet marker then the first word (a maximal
run of non-whitespace), on the raw line. -/
def listItemMatch (l : List Char) : Option (List Char) :=
  match l with
  | c0 :: c1 :: rest =>
      if (c0 = '-' || c0 = '*') && c1 = ' ' then
        let w := rest.takeWhile (fun c => !isSpaceCh c)
        if w.isEmpty then none else some w
      else none
  | _ => none

/-- `correctListItem` of the canonical revision: non-letter start and excluded
words bail out; the primary (first-letter) and secondary (double-capital)
corrections are combined into one replacement string, built primary-first, and
one `replaceRange` is issued if anything changed and the position is not
protected. -/
def correctListItem (s : EditorState) (line : List Char) (lineNo : Nat)
    (st : Settings) : EditorState :=
  match listItemMatch line with
  | none => s
  | some word =>
      let wordStart := indexOfD line word
      if !(isLetterCh (word.getD 0 ' ')) then s
      else if inExclusion st word then s
      else
        let repl1 := if listPrimaryCond word then
            toUpperStr (word.getD 0 ' ') ++ word.drop 1 else word
        let repl2 := if listSecondaryCond word then
            repl1.take 1 ++ toLowerStr (repl1.getD 1 ' ') ++ repl1.drop 2
          else repl1
        if !(listPrimaryCond word || listSecondaryCond word) then s
        else
          let r := isInProtectedBlockCall s wordStart lineNo
          if r.1 then r.2
          else issueReplace r.2 lineNo wordStart (wordStart + word.length) repl2

/-- `trimmed.match(/^(\d+)\.\s+(\S+)/)`: digits, a dot, whitespace, then the
first word; returns the word and the digit count. -/
def numberedMatch (t : List Char) : Option (List Char × Nat) :=
  let ds := t.takeWhile isDigitCh
  if ds.isEmpty then none
  else
    match t.drop ds.length with
    | '.' :: rest =>
        let sp := rest.takeWhile isSpaceCh
        if sp.isEmpty then none
        else
          let w := (rest.drop sp.length).takeWhile (fun c => !isSpaceCh c)
          if w.isEmpty then none else some (w, ds.length)
    | _ => none

/-- `correctNumberedList` of the canonical revision. -/
def correctNumberedList (s : EditorState) (line : List Char) (lineNo : Nat)
    (st : Settings) : EditorState :=
  match numberedMatch (jsTrim line) with
  | none => s
  | some (word, dlen) =>
      match indexOfFrom line word (dlen + 2) with
      | none => s
      | some wordStart =>
          if !(isLetterCh (word.getD 0 ' ')) then s
          else if inExclusion st word then s
          else
            let r := isInProtectedBlockCall s wordStart lineNo
            if r.1 then r.2
            else if listPrimaryCond word then
              issueReplace r.2 lineNo wordStart (wordStart + word.length)
                (toUpperStr (word.getD 0 ' ') ++ word.drop 1)
            else r.2

/-- `correctWord` of the canonical revision: match the last word, bail out on
exclusion, then on the double-capital pattern (and an unprotected start) issue
a one-character replacement of the second character at
`lastIndexOf(word) + 1`. -/
def correctWord (s : EditorState) (line : List Char) (lineNo : Nat)
    (st : Settings) : EditorState :=
  match lastWordOf line with
  | none => s
  | some word =>
      if inExclusion st word then s
      else
        let start := (lastIndexOfOpt line word).getD 0
        if listSecondaryCond word then
          let r := isInProtectedBlockCall s start lineNo
          if r.1 then r.2
          else issueReplace r.2 lineNo (start + 1) (start + 2)
            (toLowerStr (word.getD 1 ' '))
        else s

/-- Positions (charIdx values) produced by the exec loop over
`/(?:^|[.!?]\s+)([a-zäöüß])/gu` from position `i` on, terminator alternative
only: a terminator, one or more whitespace characters (greedy), then a
lowercase-class character.  The exec loop resumes at `lastIndex`, the position
after the matched lowercase character; restarting instead right after the
terminator is equivalent, because every character a match consumes beyond its
terminator is whitespace or a lowercase letter and therefore cannot start a
new match, and it keeps the recursion structural. -/
def sentScan : List Char → Nat → List Nat
  | [], _ => []
  | c :: rest, i =>
      if isTerminator c then
        let sp := rest.takeWhile isSpaceCh
        match rest.drop sp.length with
        | d :: _ =>
            if decide (1 ≤ sp.length) && isSentLower d then
              (i + 1 + sp.length) :: sentScan rest (i + 1)
            else sentScan rest (i + 1)
        | [] => sentScan rest (i + 1)
      else sentScan rest (i + 1)

/-- All charIdx values of the sentence regex on the line, in match order; the
start-of-line alternative can only fire at position 0. -/
def sentenceMatches (line : List Char) : List Nat :=
  match line with
  | [] => []
  | c :: rest => if isSentLower c then 0 :: sentScan rest 1 else sentScan line 0

/-- The body of the `while` loop of `correctSentence`, folded over the match
positions: protected positions are skipped, a match whose preceding word is a
configured abbreviation is skipped, non-alphabetic or excluded characters are
skipped, and otherwise the single character is uppercased in place. -/
def sentApply (line : List Char) (lineNo : Nat) (st : Settings) :
    EditorState → List Nat → EditorState
  | s, [] => s
  | s, idx :: rest =>
      let r := isInProtectedBlockCall s idx lineNo
      if r.1 then sentApply line lineNo st r.2 rest
      else
        let prevText := jsTrimEnd (line.take idx)
        let lastW := (prevText.reverse.takeWhile (fun c => !isSpaceCh c)).reverse
        if !(lastW.isEmpty) && inAbbreviations st lastW then
          sentApply line lineNo st r.2 rest
        else
          let c := line.getD idx ' '
          if !(isSentAlpha c) || inExclusion st [c] then
            sentApply line lineNo st r.2 rest
          else
            sentApply line lineNo st
              (issueReplace r.2 lineNo idx (idx + 1) (toUpperStr c)) rest

/-- `correctSentence` of the canonical revision. -/
def correctSentence (s : EditorState) (line : List Char) (lineNo : Nat)
    (st : Settings) : EditorState :=
  sentApply line lineNo st s (sentenceMatches line)

/-- The line a change event targets: the previous line when the last key was
Enter (and one exists), else the cursor's line. -/
def targetLineNo (cursorLine : Nat) (wasEnter : Bool) : Nat :=
  if wasEnter && decide (0 < cursorLine) then cursorLine - 1 else cursorLine

/-- `handleEditorChange` of the canonical revision: consume the suppression
flag if set; reset the protected-block cache; resolve the target line; bail
out on a missing or empty line or a missing trigger; then run the list-item
rule (if enabled and the trimmed line looks like a list), the word rule, and
the sentence rule (if enabled), all on the line content read once at entry. -/
def handleEditorChange (s : EditorState) (cursorLine cursorCh : Nat)
    (wasEnter : Bool) (st : Settings) : EditorState :=
  if s.suppress then { s with suppress := false }
  else
    let s0 : EditorState := { s with cacheSet := false, cacheVal := false }
    let lineNo := targetLineNo cursorLine wasEnter
    match s0.doc[lineNo]? with
    | none => s0
    | some fullLine =>
        if fullLine.isEmpty then s0
        else
          let lineUpToCursor := if wasEnter then fullLine else fullLine.take cursorCh
          let trigger := wasEnter ||
            (match lineUpToCursor.getLast? with
             | some c => TRIGGER_CHARS.contains c
             | none => false)
          if !trigger then s0
          else
            let s1 :=
              if st.capitalizeListItem then
                if (jsTrim fullLine).take 2 == str ("- ") then
                  correctListItem s0 fullLine lineNo st
                else if (numberedMatch (jsTrim fullLine)).isSome then
                  correctNumberedList s0 fullLine lineNo st
                else s0
              else s0
            let s2 := correctWord s1 fullLine lineNo st
            if st.capitalizeSentences then correctSentence s2 fullLine lineNo st
            else s2

/-- The document produced by one change event on a fresh state (suppression
consumed, cache empty), as seen after the pass. -/
def passDoc (d : Document) (cursorLine cursorCh : Nat) (wasEnter : Bool)
    (st : Settings) : Document :=
  (handleEditorChange (initState d) cursorLine cursorCh wasEnter st).doc

/-- Modelled from the spec's words (refinement comparison only): the start
index and content of the last maximal run of letter/mark/apostrophe characters
of the line ("the last run of letters/marks/apostrophes"). -/
def specLastRun (l : List Char) : Option (Nat × List Char) :=
  let starts := (List.range l.length).filter
    (fun p => isWordCh (l.getD p ' ') &&
      (decide (p = 0) || !(isWordCh (l.getD (p - 1) ' '))))
  match starts.getLast? with
  | none => none
  | some p => some (p, (l.drop p).takeWhile isWordCh)

/-- Modelled from the spec's words (refinement comparison only): the number of
lines strictly above `lineNo` whose TRIMMED content starts with three
backticks. -/
def specTrimmedFenceCount (d : Document) (lineNo : Nat) : Nat :=
  (List.take lineNo d).countP (fun l => (jsTrim l).take 3 == str ("```"))

/-- Default settings with the list-item toggle on. -/
def stListOn : Settings := { DEFAULT_SETTINGS with capitalizeListItem := true }

/-- Default settings with the sentence toggle on. -/
def stSentOn : Settings := { DEFAULT_SETTINGS with capitalizeSentences := true }

/-- State evolution facts preserved by every piece of a pass: replacements only
grow `reps`; the suppression flag can only appear together with a new
replacement; a document change forces the flag; the flag is never cleared
inside a pass. -/
def StepOK (s t : EditorState) : Prop :=
  s.reps ≤ t.reps ∧
  (t.suppress = true → s.suppress = true ∨ s.reps < t.reps) ∧
  (t.doc ≠ s.doc → t.suppress = true) ∧
  (s.suppress = true → t.suppress = true)

/-- Frame facts preserved by every piece of a pass aimed at line `n`: the line
count is unchanged and every line other than `n` is untouched. -/
def FrameOK (n : Nat) (s t : EditorState) : Prop :=
  t.doc.length = s.doc.length ∧ ∀ j, j ≠ n → t.doc[j]? = s.doc[j]?

/-- Reachable (state, pending-echo-count) pairs of the notification system:
a change notification is either an independent user edit — which, per the
host's ordering guarantee, is only delivered once no echo of an own
replacement is pending — or one of the pending echoes.  Each notification runs
`handleEditorChange`; a user edit may first replace the buffer arbitrarily.
The pending count grows by the number of replacements the handler issued. -/
inductive Reach (st : Settings) : EditorState → Nat → Prop where
  | init : ∀ d : Document, Reach st (initState d) 0
  | user : ∀ (s : EditorState) (newDoc : Document) (cl cc : Nat) (we : Bool),
      Reach st s 0 →
      Reach st (handleEditorChange { s with doc := newDoc } cl cc we st)
        ((handleEditorChange { s with doc := newDoc } cl cc we st).reps - s.reps)
  | echo : ∀ (s : EditorState) (p : Nat) (cl cc : Nat) (we : Bool),
      Reach st s (p + 1) →
      Reach st (handleEditorChange s cl cc we st)
        (p + ((handleEditorChange s cl cc we st).reps - s.reps))

/-! ### Helper lemmas -/

theorem toNat_ofNat_small (n : Nat) (h : n < 55296) : (Char.ofNat n).toNat = n := by
  have hv : Nat.isValidChar n := Or.inl h
  simp only [Char.ofNat, hv, dif_pos]
  rfl

theorem stepOK_refl (s : EditorState) : StepOK s s := by
  refine ⟨Nat.le_refl _, fun h => Or.inl h, fun h => absurd rfl h, fun h => h⟩

theorem stepOK_trans {s t u : EditorState} (h1 : StepOK s t) (h2 : StepOK t u) :
    StepOK s u := by
  obtain ⟨a1, b1, c1, d1⟩ := h1
  obtain ⟨a2, b2, c2, d2⟩ := h2
  refine ⟨Nat.le_trans a1 a2, ?_, ?_, fun h => d2 (d1 h)⟩
  · intro h
    rcases b2 h with h' | h'
    · rcases b1 h' with h'' | h''
      · exact Or.inl h''
      · exact Or.inr (Nat.lt_of_lt_of_le h'' a2)
    · exact Or.inr (Nat.lt_of_le_of_lt a1 h')
  · intro h
    by_cases hd : u.doc = t.doc
    · have : t.doc ≠ s.doc := by
        intro he
        exact h (hd.trans he)
      exact d2 (c1 this)
    · exact c2 hd

theorem stepOK_of_fields {s t : EditorState} (hd : t.doc = s.doc)
    (hr : t.reps = s.reps) (hs : t.suppress = s.suppress) : StepOK s t := by
  refine ⟨Nat.le_of_eq hr.symm, fun h => Or.inl (hs ▸ h),
    fun h => absurd hd h, fun h => hs.trans h⟩

theorem stepOK_issueReplace (s : EditorState) (n a b : Nat) (txt : List Char) :
    StepOK s (issueReplace s n a b txt) := by
  refine ⟨Nat.le_succ _, fun _ => Or.inr (Nat.lt_succ_self _), fun _ => rfl,
    fun _ => rfl⟩

theorem protCall_snd_doc (s : EditorState) (pos n : Nat) :
    (isInProtectedBlockCall s pos n).2.doc = s.doc := by
  unfold isInProtectedBlockCall
  split <;> rfl

theorem protCall_snd_reps (s : EditorState) (pos n : Nat) :
    (isInProtectedBlockCall s pos n).2.reps = s.reps := by
  unfold isInProtectedBlockCall
  split <;> rfl

theorem protCall_snd_suppress (s : EditorState) (pos n : Nat) :
    (isInProtectedBlockCall s pos n).2.suppress = s.suppress := by
  unfold isInProtectedBlockCall
  split <;> rfl

theorem stepOK_protCall (s : EditorState) (pos n : Nat) :
    StepOK s (isInProtectedBlockCall s pos n).2 :=
  stepOK_of_fields (protCall_snd_doc s pos n) (protCall_snd_reps s pos n)
    (protCall_snd_suppress s pos n)

theorem stepOK_correctListItem (s : EditorState) (l : List Char) (n : Nat)
    (stg : Settings) : StepOK s (correctListItem s l n stg) := by
  unfold correctListItem
  dsimp only
  repeat' split
  all_goals first
    | exact stepOK_refl s
    | exact stepOK_protCall s _ n
    | exact stepOK_trans (stepOK_protCall s _ n) (stepOK_issueReplace _ _ _ _ _)

theorem stepOK_correctNumberedList (s : EditorState) (l : List Char) (n : Nat)
    (stg : Settings) : StepOK s (correctNumberedList s l n stg) := by
  unfold correctNumberedList
  dsimp only
  repeat' split
  all_goals first
    | exact stepOK_refl s
    | exact stepOK_protCall s _ n
    | exact stepOK_trans (stepOK_protCall s _ n) (stepOK_issueReplace _ _ _ _ _)

theorem stepOK_correctWord (s : EditorState) (l : List Char) (n : Nat)
    (stg : Settings) : StepOK s (correctWord s l n stg) := by
  unfold correctWord
  dsimp only
  repeat' split
  all_goals first
    | exact stepOK_refl s
    | exact stepOK_protCall s _ n
    | exact stepOK_trans (stepOK_protCall s _ n) (stepOK_issueReplace _ _ _ _ _)

theorem stepOK_sentApply (l : List Char) (n : Nat) (stg : Settings)
    (ids : List Nat) : ∀ s : EditorState, StepOK s (sentApply l n stg s ids) := by
  induction ids with
  | nil => intro s; exact stepOK_refl s
  | cons idx rest ih =>
      intro s
      unfold sentApply
      dsimp only
      repeat' split
      all_goals first
        | exact stepOK_trans (stepOK_protCall s _ n) (ih _)
        | exact stepOK_trans (stepOK_protCall s _ n)
            (stepOK_trans (stepOK_issueReplace _ _ _ _ _) (ih _))

theorem stepOK_correctSentence (s : EditorState) (l : List Char) (n : Nat)
    (stg : Settings) : StepOK s (correctSentence s l n stg) :=
  stepOK_sentApply l n stg (sentenceMatches l) s

theorem handle_suppressed (s : EditorState) (cl cc : Nat) (we : Bool)
    (stg : Settings) (h : s.suppress = true) :
    handleEditorChange s cl cc we stg = { s with suppress := false } := by
  unfold handleEditorChange
  rw [if_pos h]

theorem stepOK_handle (s : EditorState) (cl cc : Nat) (we : Bool)
    (stg : Settings) (h : s.suppress = false) :
    StepOK s (handleEditorChange s cl cc we stg) := by
  have base : StepOK s { s with cacheSet := false, cacheVal := false } :=
    stepOK_of_fields rfl rfl rfl
  unfold handleEditorChange
  rw [if_neg (by simp [h])]
  dsimp only
  repeat' split
  all_goals first
    | exact base
    | exact stepOK_trans base (stepOK_correctWord _ _ _ _)
    | exact stepOK_trans base (stepOK_trans (stepOK_correctWord _ _ _ _)
        (stepOK_correctSentence _ _ _ _))
    | exact stepOK_trans base (stepOK_trans (stepOK_correctListItem _ _ _ _)
        (stepOK_correctWord _ _ _ _))
    | exact stepOK_trans base (stepOK_trans (stepOK_correctListItem _ _ _ _)
        (stepOK_trans (stepOK_correctWord _ _ _ _)
          (stepOK_correctSentence _ _ _ _)))
    | exact stepOK_trans base (stepOK_trans (stepOK_correctNumberedList _ _ _ _)
        (stepOK_correctWord _ _ _ _))
    | exact stepOK_trans base (stepOK_trans (stepOK_correctNumberedList _ _ _ _)
        (stepOK_trans (stepOK_correctWord _ _ _ _)
          (stepOK_correctSentence _ _ _ _)))

theorem reach_suppress_pending (stg : Settings) :
    ∀ (t : EditorState) (p : Nat), Reach stg t p → t.suppress = true → 1 ≤ p := by
  intro t p h
  induction h with
  | init d => intro h; simp [initState] at h
  | user s newDoc cl cc we hr ih =>
      intro hsup
      have hs : s.suppress = false := by
        cases hh : s.suppress
        · rfl
        · exact absurd (ih hh) (by omega)
      have hs' : ({ s with doc := newDoc } : EditorState).suppress = false := hs
      have hso := stepOK_handle { s with doc := newDoc } cl cc we stg hs'
      rcases hso.2.1 hsup with h' | h'
      · rw [hs'] at h'; cases h'
      · have he : ({ s with doc := newDoc } : EditorState).reps = s.reps := rfl
        omega
  | echo s p cl cc we hr ih =>
      intro hsup
      cases hh : s.suppress
      · have hso := stepOK_handle s cl cc we stg hh
        rcases hso.2.1 hsup with h' | h'
        · rw [hh] at h'; cases h'
        · omega
      · have hcon := handle_suppressed s cl cc we stg hh
        rw [hcon] at hsup
        simp at hsup

theorem reach_pending_zero (stg : Settings) (t : EditorState) (p : Nat)
    (h : Reach stg t p) (hp : p = 0) : t.suppress = false := by
  cases hh : t.suppress
  · rfl
  · have := reach_suppress_pending stg t p h hh
    omega

theorem frameOK_refl (n : Nat) (s : EditorState) : FrameOK n s s :=
  ⟨rfl, fun _ _ => rfl⟩

theorem frameOK_trans {n : Nat} {s t u : EditorState} (h1 : FrameOK n s t)
    (h2 : FrameOK n t u) : FrameOK n s u :=
  ⟨h2.1.trans h1.1, fun j hj => (h2.2 j hj).trans (h1.2 j hj)⟩

theorem frameOK_of_doc_eq {n : Nat} {s t : EditorState} (h : t.doc = s.doc) :
    FrameOK n s t := ⟨by rw [h], fun j _ => by rw [h]⟩

theorem frameOK_issueReplace (s : EditorState) (n a b : Nat) (txt : List Char) :
    FrameOK n s (issueReplace s n a b txt) := by
  refine ⟨by simp [issueReplace], ?_⟩
  intro j hj
  show (s.doc.set n _)[j]? = s.doc[j]?
  rw [List.getElem?_set, if_neg (fun h => hj h.symm)]

theorem frameOK_protCall (n : Nat) (s : EditorState) (pos m : Nat) :
    FrameOK n s (isInProtectedBlockCall s pos m).2 :=
  frameOK_of_doc_eq (protCall_snd_doc s pos m)

theorem frameOK_correctListItem (s : EditorState) (l : List Char) (n : Nat)
    (stg : Settings) : FrameOK n s (correctListItem s l n stg) := by
  unfold correctListItem
  dsimp only
  repeat' split
  all_goals first
    | exact frameOK_refl n s
    | exact frameOK_protCall n s _ n
    | exact frameOK_trans (frameOK_protCall n s _ n)
        (frameOK_issueReplace _ n _ _ _)

theorem frameOK_correctNumberedList (s : EditorState) (l : List Char) (n : Nat)
    (stg : Settings) : FrameOK n s (correctNumberedList s l n stg) := by
  unfold correctNumberedList
  dsimp only
  repeat' split
  all_goals first
    | exact frameOK_refl n s
    | exact frameOK_protCall n s _ n
    | exact frameOK_trans (frameOK_protCall n s _ n)
        (frameOK_issueReplace _ n _ _ _)

theorem frameOK_correctWord (s : EditorState) (l : List Char) (n : Nat)
    (stg : Settings) : FrameOK n s (correctWord s l n stg) := by
  unfold correctWord
  dsimp only
  repeat' split
  all_goals first
    | exact frameOK_refl n s
    | exact frameOK_protCall n s _ n
    | exact frameOK_trans (frameOK_protCall n s _ n)
        (frameOK_issueReplace _ n _ _ _)

theorem frameOK_sentApply (l : List Char) (n : Nat) (stg : Settings)
    (ids : List Nat) : ∀ s : EditorState, FrameOK n s (sentApply l n stg s ids) := by
  induction ids with
  | nil => intro s; exact frameOK_refl n s
  | cons idx rest ih =>
      intro s
      unfold sentApply
      dsimp only
      repeat' split
      all_goals first
        | exact frameOK_trans (frameOK_protCall n s _ n) (ih _)
        | exact frameOK_trans (frameOK_protCall n s _ n)
            (frameOK_trans (frameOK_issueReplace _ n _ _ _) (ih _))

theorem frameOK_correctSentence (s : EditorState) (l : List Char) (n : Nat)
    (stg : Settings) : FrameOK n s (correctSentence s l n stg) :=
  frameOK_sentApply l n stg (sentenceMatches l) s

theorem frameOK_handle (s : EditorState) (cl cc : Nat) (we : Bool)
    (stg : Settings) :
    FrameOK (targetLineNo cl we) s (handleEditorChange s cl cc we stg) := by
  by_cases h : s.suppress = true
  · rw [handle_suppressed s cl cc we stg h]
    exact frameOK_of_doc_eq rfl
  · have base : FrameOK (targetLineNo cl we) s
        { s with cacheSet := false, cacheVal := false } := frameOK_of_doc_eq rfl
    unfold handleEditorChange
    rw [if_neg h]
    dsimp only
    repeat' split
    all_goals first
      | exact base
      | exact frameOK_trans base (frameOK_correctWord _ _ _ _)
      | exact frameOK_trans base (frameOK_trans (frameOK_correctWord _ _ _ _)
          (frameOK_correctSentence _ _ _ _))
      | exact frameOK_trans base (frameOK_trans (frameOK_correctListItem _ _ _ _)
          (frameOK_correctWord _ _ _ _))
      | exact frameOK_trans base (frameOK_trans (frameOK_correctListItem _ _ _ _)
          (frameOK_trans (frameOK_correctWord _ _ _ _)
            (frameOK_correctSentence _ _ _ _)))
      | exact frameOK_trans base (frameOK_trans
          (frameOK_correctNumberedList _ _ _ _) (frameOK_correctWord _ _ _ _))
      | exact frameOK_trans base (frameOK_trans
          (frameOK_correctNumberedList _ _ _ _)
          (frameOK_trans (frameOK_correctWord _ _ _ _)
            (frameOK_correctSentence _ _ _ _)))

theorem matchesAt_eq {l w : List Char} {i : Nat} (h : matchesAt l w i = true) :
    (l.drop i).take w.length = w := eq_of_beq h

theorem matchesAt_bound {l w : List Char} {i : Nat} (h : matchesAt l w i = true)
    (hw : w ≠ []) : i + w.length ≤ l.length := by
  have he := matchesAt_eq h
  have h1 : ((l.drop i).take w.length).length = w.length := by rw [he]
  simp only [List.length_take, List.length_drop] at h1
  have h2 : w.length ≤ l.length - i := h1 ▸ Nat.min_le_right _ _
  have h3 : 0 < w.length := List.length_pos.mpr hw
  omega

theorem matchesAt_getD {l w : List Char} {i : Nat} (h : matchesAt l w i = true)
    {j : Nat} (hj : j < w.length) : l.getD (i + j) ' ' = w.getD j ' ' := by
  have he := matchesAt_eq h
  have h1 : w[j]? = l[i + j]? := by
    conv_lhs => rw [← he]
    rw [List.getElem?_take, if_pos hj, List.getElem?_drop]
  simp only [List.getD_eq_getElem?_getD, h1]

theorem lastIndexAux_matches (l w : List Char) :
    ∀ (k j : Nat), lastIndexAux l w k = some j → matchesAt l w j = true := by
  intro k
  induction k with
  | zero =>
      intro j h
      unfold lastIndexAux at h
      split at h
      next hc => injection h with h2; subst h2; exact hc
      next => cases h
  | succ k ih =>
      intro j h
      unfold lastIndexAux at h
      split at h
      next hc => injection h with h2; subst h2; exact hc
      next => exact ih j h

theorem lastIndexAux_eq (l w : List Char) (p : Nat)
    (hm : matchesAt l w p = true) :
    ∀ k, p ≤ k → (∀ j, p < j → j ≤ k → matchesAt l w j = false) →
      lastIndexAux l w k = some p := by
  intro k
  induction k with
  | zero =>
      intro hp _
      have : p = 0 := Nat.le_zero.mp hp
      subst this
      unfold lastIndexAux
      rw [if_pos hm]
  | succ k ih =>
      intro hp hnone
      unfold lastIndexAux
      by_cases he : p = k + 1
      · subst he; rw [if_pos hm]
      · have h1 : matchesAt l w (k + 1) = false :=
          hnone (k + 1) (by omega) (by omega)
        rw [if_neg (by simp [h1])]
        exact ih (by omega) (fun j hj1 hj2 => hnone j hj1 (by omega))

theorem set_oob {α : Type} (l : List α) (i : Nat) (c : α) (h : l.length ≤ i) :
    l.set i c = l := by
  induction l generalizing i with
  | nil => rfl
  | cons a t ih =>
      cases i with
      | zero => simp at h
      | succ j => simp only [List.set]; rw [ih j (by simpa using h)]

theorem set_getD_self (l : List Char) (i : Nat) (d : Char) (h : i < l.length) :
    l.set i (l.getD i d) = l := by
  induction l generalizing i with
  | nil => simp at h
  | cons a t ih =>
      cases i with
      | zero => simp [List.set, List.getD]
      | succ j =>
          simp only [List.set, List.getD_cons_succ]
          rw [ih j (by simpa using h)]

theorem getD_drop (l : List Char) (n k : Nat) (d : Char) :
    (l.drop n).getD k d = l.getD (n + k) d := by
  simp [List.getD_eq_getElem?_getD, List.getElem?_drop]

theorem getD_take {l : List Char} {m k : Nat} (h : k < m) (d : Char) :
    (l.take m).getD k d = l.getD k d := by
  simp [List.getD_eq_getElem?_getD, List.getElem?_take, h]

theorem getD_set_same {l : List Char} {i : Nat} {c d : Char}
    (h : i < l.length) : (l.set i c).getD i d = c := by
  simp [List.getD_eq_getElem?_getD, List.getElem?_set, h]

theorem getD_set_other {l : List Char} {i j : Nat} {c d : Char}
    (h : i ≠ j) : (l.set i c).getD j d = l.getD j d := by
  simp [List.getD_eq_getElem?_getD, List.getElem?_set, h]

theorem getD_reverse {l : List Char} {k : Nat} (h : k < l.length) (d : Char) :
    l.reverse.getD k d = l.getD (l.length - 1 - k) d := by
  have hk : k < l.reverse.length := by simpa using h
  simp [List.getD_eq_getElem?_getD, List.getElem?_reverse h]

theorem reverse_set (l : List Char) (i : Nat) (c : Char) (h : i < l.length) :
    (l.set i c).reverse = l.reverse.set (l.length - 1 - i) c := by
  apply List.ext_getElem?
  intro n
  by_cases hn : n < l.length
  · rw [List.getElem?_reverse (by simpa using hn), List.length_set,
      List.getElem?_set, List.getElem?_set]
    by_cases he : i = l.length - 1 - n
    · rw [if_pos he, if_pos h, if_pos (by omega : l.length - 1 - i = n),
        if_pos (by simp; omega : l.length - 1 - i < l.reverse.length)]
    · rw [if_neg he, if_neg (by omega : ¬ l.length - 1 - i = n),
        List.getElem?_reverse hn]
  · rw [List.getElem?_eq_none (by simp; omega),
      List.getElem?_eq_none (by simp; omega)]

theorem twLen_le (p : Char → Bool) (l : List Char) :
    (l.takeWhile p).length ≤ l.length := by
  induction l with
  | nil => simp
  | cons a t ih =>
      by_cases h : p a
      · simp [List.takeWhile, h]; omega
      · simp [List.takeWhile, h]

theorem tw_getD_true (p : Char → Bool) (l : List Char) (d : Char) :
    ∀ k, k < (l.takeWhile p).length → p (l.getD k d) = true := by
  induction l with
  | nil => intro k hk; simp at hk
  | cons a t ih =>
      intro k hk
      by_cases h : p a
      · cases k with
        | zero => simpa [List.getD]
        | succ j =>
            simp only [List.takeWhile, h, List.length_cons] at hk
            simp only [List.getD_cons_succ]
            exact ih j (by simpa using hk)
      · simp [List.takeWhile, h] at hk

theorem tw_stop_false (p : Char → Bool) (l : List Char) (d : Char)
    (h : (l.takeWhile p).length < l.length) :
    p (l.getD (l.takeWhile p).length d) = false := by
  induction l with
  | nil => simp at h
  | cons a t ih =>
      by_cases hp : p a
      · simp only [List.takeWhile, hp] at h ⊢
        simp only [List.length_cons, List.getD_cons_succ] at h ⊢
        exact ih (by omega)
      · simp [List.takeWhile, hp]

theorem take_twLen (p : Char → Bool) (l : List Char) :
    l.take ((l.takeWhile p).length) = l.takeWhile p := by
  induction l with
  | nil => simp
  | cons a t ih =>
      by_cases h : p a
      · simp [List.takeWhile, h, ih]
      · simp [List.takeWhile, h]

theorem tw_len_set (p : Char → Bool) (l : List Char) :
    ∀ (i : Nat) (c : Char), i < l.length → p c = p (l.getD i ' ') →
      ((l.set i c).takeWhile p).length = (l.takeWhile p).length := by
  induction l with
  | nil => intro i c hi _; simp at hi
  | cons a t ih =>
      intro i c hi hpc
      cases i with
      | zero =>
          simp only [List.getD_cons_zero] at hpc
          by_cases h : p a
          · simp [List.set, List.takeWhile, h, hpc.trans h]
          · have : p c = false := by rw [hpc]; simpa using h
            simp [List.set, List.takeWhile, h, this]
      | succ j =>
          simp only [List.getD_cons_succ] at hpc
          by_cases h : p a
          · simp only [List.set, List.takeWhile, h, List.length_cons]
            rw [ih j c (by simpa using hi) hpc]
          · simp [List.set, List.takeWhile, h]

theorem take_set (l : List Char) (i m : Nat) (c : Char) :
    (l.set i c).take m = if i < m then (l.take m).set i c else l.take m := by
  apply List.ext_getElem?
  intro n
  by_cases him : i < m
  · rw [if_pos him]
    by_cases hn : n < m
    · by_cases he : i = n
      · subst he
        by_cases hl : i < l.length
        · simp [List.getElem?_take, List.getElem?_set, List.length_take, hn,
            hl, Nat.lt_min, him]
        · simp [List.getElem?_take, List.getElem?_set, List.length_take, hn,
            hl, Nat.lt_min]
      · simp [List.getElem?_take, List.getElem?_set, hn, he]
    · have hne : i ≠ n := by omega
      simp [List.getElem?_take, List.getElem?_set, hn, hne]
  · rw [if_neg him]
    by_cases hn : n < m
    · have hne : i ≠ n := by omega
      simp [List.getElem?_take, List.getElem?_set, hn, hne]
    · simp [List.getElem?_take, hn]

theorem find?_congr_list {f g : Nat → Bool} (l : List Nat)
    (h : ∀ x ∈ l, f x = g x) : l.find? f = l.find? g := by
  induction l with
  | nil => rfl
  | cons a t ih =>
      have ha := h a (by simp)
      by_cases hf : f a
      · rw [List.find?_cons_of_pos _ hf, List.find?_cons_of_pos _ (ha ▸ hf)]
      · rw [List.find?_cons_of_neg _ hf,
          List.find?_cons_of_neg _ (by rw [← ha]; exact hf)]
        exact ih (fun x hx => h x (by simp [hx]))

theorem length_replaceSeg (l txt : List Char) (a b : Nat) (ha : a ≤ l.length)
    (hb : b ≤ l.length) (hab : a ≤ b) (ht : txt.length = b - a) :
    (replaceSeg l a b txt).length = l.length := by
  simp only [replaceSeg, List.length_append, List.length_take,
    List.length_drop]
  omega

theorem unescCount_append_nonmark {mark c : Char} (hc : c ≠ mark) :
    ∀ (prev : Option Char) (l : List Char),
      unescCount mark prev (l ++ [c]) = unescCount mark prev l := by
  intro prev l
  induction l generalizing prev with
  | nil => simp [unescCount, hc]
  | cons a t ih => simp [unescCount, ih]

theorem take_succ_getD {l : List Char} {i : Nat} (h : i < l.length) :
    l.take (i + 1) = l.take i ++ [l.getD i ' '] := by
  rw [List.take_succ, List.getD_eq_getElem _ _ h, List.getElem?_eq_getElem h]
  rfl

theorem unescBelow_succ {mark : Char} {l : List Char} {pos : Nat}
    (hc : l.getD pos ' ' ≠ mark) :
    unescBelow mark l (pos + 1) = unescBelow mark l pos := by
  by_cases hp : pos < l.length
  · unfold unescBelow
    rw [take_succ_getD hp, unescCount_append_nonmark hc]
  · unfold unescBelow
    rw [List.take_of_length_le (by omega), List.take_of_length_le (by omega)]

theorem computeProtected_succ {d : Document} {lineNo pos : Nat}
    (h1 : (getLineD d lineNo).getD pos ' ' ≠ Char.ofNat 96)
    (h2 : (getLineD d lineNo).getD pos ' ' ≠ '$') :
    computeProtected d lineNo (pos + 1) = computeProtected d lineNo pos := by
  unfold computeProtected
  rw [unescBelow_succ h1, unescBelow_succ h2]

theorem isWordCh_not_backtick {c : Char} (h : isWordCh c = true) :
    c ≠ Char.ofNat 96 := by
  rintro rfl
  revert h
  decide

theorem isWordCh_not_dollar {c : Char} (h : isWordCh c = true) : c ≠ '$' := by
  rintro rfl
  revert h
  decide

theorem lastWordOf_spec {l w : List Char} (h : lastWordOf l = some w) :
    ∃ p, lastWordSpan l = some (p, runEndAt l p) ∧
      w = (l.drop p).takeWhile isWordCh ∧
      isWordCh (l.getD p ' ') = true ∧ wqIndex l ≤ runEndAt l p ∧
      p < l.length := by
  unfold lastWordOf at h
  unfold lastWordSpan at h ⊢
  cases hf : (List.range l.length).find?
      (fun p => isWordCh (l.getD p ' ') && decide (wqIndex l ≤ runEndAt l p)) with
  | none => rw [hf] at h; cases h
  | some p =>
      rw [hf] at h
      simp only [Option.map_some] at h
      have hpred := List.find?_some hf
      simp only [Bool.and_eq_true, decide_eq_true_eq] at hpred
      have hmem : p < l.length := List.mem_range.mp (List.mem_of_find?_eq_some hf)
      refine ⟨p, rfl, ?_, hpred.1, hpred.2, hmem⟩
      have hw : w = (l.drop p).take (runEndAt l p - p) := by
        injection h with h'
        exact h'.symm
      rw [hw]
      unfold runEndAt
      rw [Nat.add_sub_cancel_left]
      exact take_twLen isWordCh (l.drop p)

theorem word_getD_of_takeWhile {l w : List Char} {p : Nat}
    (hw : w = (l.drop p).takeWhile isWordCh) {k : Nat} (hk : k < w.length) :
    w.getD k ' ' = l.getD (p + k) ' ' ∧ isWordCh (w.getD k ' ') = true := by
  have hlen : w.length = ((l.drop p).takeWhile isWordCh).length := by rw [hw]
  constructor
  · rw [hw, ← take_twLen isWordCh (l.drop p), getD_take (hlen ▸ hk), getD_drop]
  · rw [hw]
    rw [← take_twLen isWordCh (l.drop p), getD_take (hlen ▸ hk)]
    exact tw_getD_true isWordCh (l.drop p) ' ' k (hlen ▸ hk)

/-! ### Claim theorems -/

/-- C1, counterexample: within one change event the classifier is NOT a pure
function of (content, offset).  On the single line x`y` a first call at offset
0 stores the verdict false; a second call in the same event at offset 2 — a
position with an odd number of unescaped backticks strictly below it, which
the specified algorithm classifies as protected — still returns the cached
false. -/
theorem C1_counterexample :
    (isInProtectedBlockCall
        (isInProtectedBlockCall (initState [str ("x`y`")]) 0 0).2 2 0).1
      = false ∧
    computeProtected [str ("x`y`")] 0 2 = true ∧
    unescBelow (Char.ofNat 96) (str ("x`y`")) 2 % 2 = 1 := by
  decide

/-- C1, amended: the classifier is memoized per change event.  The first call
of an event (cache empty) returns the uncached computation at that call's own
offset and populates the cache; every later call of the same event returns the
first call's verdict unchanged, whatever its own offset is. -/
theorem C1_classifier_memoized_per_event :
    ∀ (s : EditorState) (pos lineNo : Nat),
      (s.cacheSet = false →
        isInProtectedBlockCall s pos lineNo =
          (computeProtected s.doc lineNo pos,
            { s with cacheSet := true,
                     cacheVal := computeProtected s.doc lineNo pos })) ∧
      (s.cacheSet = true →
        isInProtectedBlockCall s pos lineNo = (s.cacheVal, s)) := by
  intro s pos lineNo
  constructor
  · intro h
    simp [isInProtectedBlockCall, h]
  · intro h
    simp [isInProtectedBlockCall, h]

/-- C1, witness for the amended theorem at a concrete input. -/
theorem C1_classifier_memoized_per_event_witness :
    isInProtectedBlockCall (initState [str ("x`y`")]) 2 0 =
      (true,
        { initState [str ("x`y`")] with
          cacheSet := true
          cacheVal := true }) := by
  have h := (C1_classifier_memoized_per_event (initState [str ("x`y`")]) 2 0).1
    rfl
  rw [h]
  decide

/-- C2, counterexample: the code counts fence lines WITHOUT trimming
(`/^```/gm`).  With the single indented fence line above, the trimmed count is
odd, yet the classifier does not protect the line below at offset 0. -/
theorem C2_counterexample :
    specTrimmedFenceCount [str ("  ```"), str ("HAllo")] 1 % 2 = 1 ∧
    (isInProtectedBlockCall (initState [str ("  ```"), str ("HAllo")]) 0 1).1
      = false := by
  decide

/-- C2, amended: with "trimmed" dropped the invariant holds: if the number of
lines strictly above the target line that literally start with three backticks
is odd, a fresh-cache classifier call returns true at every offset. -/
theorem C2_open_fence_protects_every_offset :
    ∀ (s : EditorState) (lineNo pos : Nat),
      s.cacheSet = false → fenceCountCode s.doc lineNo % 2 = 1 →
      (isInProtectedBlockCall s pos lineNo).1 = true := by
  intro s lineNo pos hc hodd
  simp only [isInProtectedBlockCall, hc, Bool.false_eq_true, if_false]
  unfold computeProtected
  split
  · rfl
  · rw [if_pos (by omega : fenceCountCode s.doc lineNo % 2 ≠ 0)]

/-- C2, witness for the amended theorem at a concrete input. -/
theorem C2_open_fence_protects_every_offset_witness :
    (isInProtectedBlockCall (initState [str ("```"), str ("HAllo")]) 3 1).1
      = true :=
  C2_open_fence_protects_every_offset (initState [str ("```"), str ("HAllo")])
    1 3 rfl (by decide)

/-- C5: scenario B holds — a triggered pass over `- HAllo` with
list-capitalization enabled produces `- Hallo` — and the ordering clause is
vacuous on this code: the two list-item corrections can never both apply to
the same word, because the first-letter correction requires the first
character to differ from its uppercase while the double-capital repair
requires it to equal its uppercase. -/
theorem C5_list_item_scenario_and_ordering :
    (handleEditorChange (initState [str ("- HAllo"), []]) 1 0 true stListOn).doc
      = [str ("- Hallo"), []] ∧
    ∀ w : List Char, listPrimaryCond w = true → listSecondaryCond w = false := by
  constructor
  · decide
  · intro w h
    have h' : jsEqUpper (w.getD 0 ' ') = false := by
      simpa [listPrimaryCond] using h
    unfold listSecondaryCond
    rw [h']
    simp

/-- C5, witness for the implication part at a concrete word. -/
theorem C5_list_item_scenario_and_ordering_witness :
    listPrimaryCond (str ("hAllo")) = true ∧
    listSecondaryCond (str ("hAllo")) = false :=
  ⟨by decide, C5_list_item_scenario_and_ordering.2 (str ("hAllo")) (by decide)⟩

/-- C7: with sentence-capitalization on and the default abbreviation set
(containing e.g.), the sentence rule on `This is e.g. not a new sentence.`
issues no replacement: the lowercase n after `e.g. ` (offset 13) survives
because the word preceding the terminator case-insensitively matches a
configured abbreviation. -/
theorem C7_abbreviation_suppression :
    (correctSentence (initState [str ("This is e.g. not a new sentence.")])
        (str ("This is e.g. not a new sentence.")) 0 stSentOn).doc
      = [str ("This is e.g. not a new sentence.")] ∧
    (correctSentence (initState [str ("This is e.g. not a new sentence.")])
        (str ("This is e.g. not a new sentence.")) 0 stSentOn).reps = 0 ∧
    (str ("This is e.g. not a new sentence.")).getD 13 ' ' = 'n' ∧
    inAbbreviations stSentOn (str ("e.g.")) = true := by
  refine ⟨?_, ?_, ?_, ?_⟩ <;> decide

/-- C6: exclusion precedence in the canonical revision.  A word whose
case-folded form is in the exclusion set is never modified: the bullet
list-item rule, the numbered list-item rule and the word rule each return the
state unchanged when the word they matched is excluded, whatever pattern the
word shows. -/
theorem C6_exclusion_precedence :
    ∀ (s : EditorState) (line : List Char) (lineNo : Nat) (stg : Settings)
      (w : List Char),
      (listItemMatch line = some w → inExclusion stg w = true →
        correctListItem s line lineNo stg = s) ∧
      (∀ dlen, numberedMatch (jsTrim line) = some (w, dlen) →
        inExclusion stg w = true → correctNumberedList s line lineNo stg = s) ∧
      (lastWordOf line = some w → inExclusion stg w = true →
        correctWord s line lineNo stg = s) := by
  intro s line lineNo stg w
  refine ⟨?_, ?_, ?_⟩
  · intro hm hexc
    simp only [correctListItem, hm]
    rw [hexc]
    split <;> simp
  · intro dlen hm hexc
    simp only [correctNumberedList, hm]
    split
    · rfl
    · rw [hexc]
      split <;> simp
  · intro hm hexc
    simp only [correctWord, hm]
    rw [hexc]
    simp

/-- C6, witness: with hallo excluded, the word rule leaves `HAllo ` alone even
though it matches the double-capital pattern. -/
theorem C6_exclusion_precedence_witness :
    correctWord
        (initState [str ("HAllo ")]) (str ("HAllo ")) 0
        { DEFAULT_SETTINGS with exclusionList := [str ("hallo")] }
      = initState [str ("HAllo ")] :=
  (C6_exclusion_precedence (initState [str ("HAllo ")]) (str ("HAllo ")) 0
    { DEFAULT_SETTINGS with exclusionList := [str ("hallo")] }
    (str ("HAllo"))).2.2 (by decide) (by decide)

/-- C9: defensive no-ops.  A missing target line (`getLine` out of range) or
an empty one makes the handler return after only resetting its per-event
cache, leaving the document untouched; and each rule whose pattern fails to
match returns the state unchanged.  All embedded functions are total, so no
code path raises. -/
theorem C9_defensive_no_ops :
    ∀ (s : EditorState) (cl cc : Nat) (we : Bool) (stg : Settings)
      (line : List Char) (lineNo : Nat),
      (s.suppress = false →
        (s.doc[targetLineNo cl we]? = none ∨
          s.doc[targetLineNo cl we]? = some []) →
        handleEditorChange s cl cc we stg =
          { s with cacheSet := false, cacheVal := false }) ∧
      (listItemMatch line = none → correctListItem s line lineNo stg = s) ∧
      (numberedMatch (jsTrim line) = none →
        correctNumberedList s line lineNo stg = s) ∧
      (lastWordOf line = none → correctWord s line lineNo stg = s) ∧
      (sentenceMatches line = [] → correctSentence s line lineNo stg = s) := by
  intro s cl cc we stg line lineNo
  refine ⟨?_, ?_, ?_, ?_, ?_⟩
  · intro hsup hline
    unfold handleEditorChange
    rw [if_neg (by simp [hsup])]
    dsimp only
    rcases hline with h | h
    · rw [h]
    · rw [h]; rfl
  · intro h
    simp [correctListItem, h]
  · intro h
    simp [correctNumberedList, h]
  · intro h
    simp [correctWord, h]
  · intro h
    simp [correctSentence, h, sentApply]

/-- C9, witness: the handler on a one-empty-line document at an in-range
cursor, and on a cursor past the end. -/
theorem C9_defensive_no_ops_witness :
    handleEditorChange (initState [[]]) 0 0 false DEFAULT_SETTINGS
      = initState [[]] ∧
    handleEditorChange (initState [str ("abc")]) 7 0 false DEFAULT_SETTINGS
      = initState [str ("abc")] := by
  constructor
  · exact (C9_defensive_no_ops (initState [[]]) 0 0 false DEFAULT_SETTINGS []
      0).1 rfl (by decide)
  · exact (C9_defensive_no_ops (initState [str ("abc")]) 7 0 false
      DEFAULT_SETTINGS [] 0).1 rfl (by decide)

/-- C10, counterexample: the sentence rule can grow a line.  On `A. ßeta `
(8 characters) with sentence-capitalization on, the matched sharp s is
uppercased to the two-character SS, so the single-character range [3,4) is
replaced by text of length 2 and the line becomes `A. SSeta ` (9
characters). -/
theorem C10_counterexample :
    (handleEditorChange (initState [str ("A. ßeta ")]) 0 8 false stSentOn).doc
      = [str ("A. SSeta ")] ∧
    (str ("A. ßeta ")).length = 8 ∧ (str ("A. SSeta ")).length = 9 := by
  refine ⟨?_, ?_, ?_⟩ <;> decide

/-- C4: suppression-flag discipline.  (1) A notification arriving with the
flag set only clears the flag: nothing else in the state changes and no rule
runs.  (2) If a pass (flag initially clear) changes the document, the flag is
set when it returns — every replacement is issued through the
flag-setting-plus-replaceRange pairing.  (3) Along any reachable trace in
which the host delivers every echo of an own replacement before the next
independent user edit, the flag is always clear at the moment a user edit is
processed (pending-echo count zero). -/
theorem C4_suppression_flag_discipline :
    ∀ (stg : Settings) (s : EditorState) (cl cc : Nat) (we : Bool),
      (s.suppress = true →
        handleEditorChange s cl cc we stg = { s with suppress := false }) ∧
      (s.suppress = false →
        (handleEditorChange s cl cc we stg).doc ≠ s.doc →
        (handleEditorChange s cl cc we stg).suppress = true) ∧
      (∀ (t : EditorState) (p : Nat), Reach stg t p → p = 0 →
        t.suppress = false) := by
  intro stg s cl cc we
  refine ⟨handle_suppressed s cl cc we stg, ?_, ?_⟩
  · intro h hd
    exact (stepOK_handle s cl cc we stg h).2.2.1 hd
  · intro t p h hp
    exact reach_pending_zero stg t p h hp

/-- C4, witness: a suppressed notification on a concrete state consumes the
flag and changes nothing else. -/
theorem C4_suppression_flag_discipline_witness :
    handleEditorChange
        { initState [str ("HAllo ")] with suppress := true } 0 6 false
        DEFAULT_SETTINGS
      = initState [str ("HAllo ")] :=
  (C4_suppression_flag_discipline DEFAULT_SETTINGS
    { initState [str ("HAllo ")] with suppress := true } 0 6 false).1 rfl

/-- C3, counterexample: the word rule does NOT always select the last maximal
letter/mark/apostrophe run.  On `ÄÄäy ÄÄä` the last run is `ÄÄä` at index 5
(it matches the double-capital pattern, is not excluded and is unprotected,
so the claim demands lowercasing index 6), but the regex `(?=\W*$)` lookahead
accepts the earlier run `ÄÄäy` — non-ASCII letters count as `\W` — and the
code lowercases index 1 instead, producing `Äääy ÄÄä`. -/
theorem C3_counterexample :
    specLastRun (str ("ÄÄäy ÄÄä")) = some (5, str ("ÄÄä")) ∧
    listSecondaryCond (str ("ÄÄä")) = true ∧
    inExclusion DEFAULT_SETTINGS (str ("ÄÄä")) = false ∧
    computeProtected [str ("ÄÄäy ÄÄä")] 0 6 = false ∧
    (correctWord (initState [str ("ÄÄäy ÄÄä")]) (str ("ÄÄäy ÄÄä")) 0
        DEFAULT_SETTINGS).doc = [str ("Äääy ÄÄä")] ∧
    (correctWord (initState [str ("ÄÄäy ÄÄä")]) (str ("ÄÄäy ÄÄä")) 0
        DEFAULT_SETTINGS).doc
      ≠ [(str ("ÄÄäy ÄÄä")).set 6 (toLowerChar 'Ä')] := by
  refine ⟨?_, ?_, ?_, ?_, ?_, ?_⟩ <;> decide

/-- C3, amended: the word rule selects the word matched by
`[\p{L}\p{M}']+(?=\W*$)` — the first maximal word-character run whose end is
followed only by JS non-word characters, which coincides with the last run
whenever no letter/mark/apostrophe hides among the trailing `\W` characters —
located at that word string's LAST occurrence `start`.  When the word is not
excluded (case-folded) and shows the double-capital pattern, exactly the
character at `start + 1` is replaced by the lowercase of the word's second
character, gated by a protected-region check at column `start`; that verdict
provably equals the verdict at the second character's column `start + 1`,
because the character at `start` is a word character and so never a backtick
or dollar. -/
theorem C3_word_rule_on_regex_match :
    ∀ (d : Document) (line : List Char) (lineNo : Nat) (stg : Settings)
      (word : List Char) (start : Nat),
      getLineD d lineNo = line →
      lastWordOf line = some word →
      lastIndexOfOpt line word = some start →
      inExclusion stg word = false →
      listSecondaryCond word = true →
      computeProtected d lineNo start = false →
      correctWord (initState d) line lineNo stg =
        issueReplace
          { initState d with
            cacheSet := true
            cacheVal := false }
          lineNo (start + 1) (start + 2) (toLowerStr (word.getD 1 ' ')) ∧
      computeProtected d lineNo (start + 1) = computeProtected d lineNo start := by
  intro d line lineNo stg word start hline hlw hli hexc hsec hprot
  constructor
  · have hcall : isInProtectedBlockCall (initState d) start lineNo
        = (false,
            { initState d with
              cacheSet := true
              cacheVal := false }) := by
      simp [isInProtectedBlockCall, initState, hprot]
    simp only [correctWord, hlw, hexc, hli, hsec, Option.getD_some,
      Bool.false_eq_true, if_false, if_true, hcall]
  · have hm : matchesAt line word start = true :=
      lastIndexAux_matches line word line.length start hli
    have hsec' := hsec
    simp only [listSecondaryCond, Bool.and_eq_true, decide_eq_true_eq] at hsec'
    have h3 : 3 ≤ word.length := hsec'.1.1.1
    obtain ⟨p, hspan, hwtw, hwc, hq, hp⟩ := lastWordOf_spec hlw
    have h0 : (0 : Nat) < word.length := by omega
    have hch := word_getD_of_takeWhile hwtw h0
    have hcs : line.getD start ' ' = word.getD 0 ' ' := by
      have := matchesAt_getD hm h0
      simpa using this
    have hcw : isWordCh (line.getD start ' ') = true := by
      rw [hcs]; exact hch.2
    refine computeProtected_succ ?_ ?_
    · rw [hline]; exact isWordCh_not_backtick hcw
    · rw [hline]; exact isWordCh_not_dollar hcw

/-- C3, witness: on `HAllo ` the regex match, last occurrence, pattern and
protection hypotheses all hold at start 0 and the rule rewrites the line to
`Hallo `. -/
theorem C3_word_rule_on_regex_match_witness :
    (correctWord (initState [str ("HAllo ")]) (str ("HAllo ")) 0
        DEFAULT_SETTINGS).doc = [str ("Hallo ")] := by
  have h := C3_word_rule_on_regex_match [str ("HAllo ")] (str ("HAllo ")) 0
    DEFAULT_SETTINGS (str ("HAllo")) 0 rfl (by decide) (by decide) (by decide)
    (by decide) (by decide)
  rw [h.1]
  decide

theorem primary_secondary_exclusive (w : List Char)
    (h : listPrimaryCond w = true) : listSecondaryCond w = false := by
  have h' : jsEqUpper (w.getD 0 ' ') = false := by
    simpa [listPrimaryCond] using h
  unfold listSecondaryCond
  rw [h']
  simp

theorem toUpperStr_len {c : Char} (h : c ≠ 'ß') :
    (toUpperStr c).length = 1 := by
  unfold toUpperStr
  repeat' split
  all_goals rfl

theorem sentScan_bound : ∀ (l : List Char) (i x : Nat),
    x ∈ sentScan l i → x < i + l.length := by
  intro l
  induction l with
  | nil => intro i x hx; simp [sentScan] at hx
  | cons c rest ih =>
      intro i x hx
      unfold sentScan at hx
      by_cases ht : isTerminator c = true
      · rw [if_pos ht] at hx
        dsimp only at hx
        cases hdrop : rest.drop ((rest.takeWhile isSpaceCh).length) with
        | nil =>
            rw [hdrop] at hx
            dsimp only at hx
            have := ih (i + 1) x hx
            simp only [List.length_cons]
            omega
        | cons d tail =>
            rw [hdrop] at hx
            dsimp only at hx
            have hsp : (rest.takeWhile isSpaceCh).length < rest.length := by
              have h1 : (rest.drop ((rest.takeWhile isSpaceCh).length)).length
                  = tail.length + 1 := by rw [hdrop]; rfl
              simp only [List.length_drop] at h1
              have h2 := twLen_le isSpaceCh rest
              omega
            by_cases hc : (decide (1 ≤ (rest.takeWhile isSpaceCh).length) &&
                isSentLower d) = true
            · rw [if_pos hc] at hx
              rcases List.mem_cons.mp hx with hx | hx
              · simp only [List.length_cons]
                omega
              · have := ih (i + 1) x hx
                simp only [List.length_cons]
                omega
            · rw [if_neg hc] at hx
              have := ih (i + 1) x hx
              simp only [List.length_cons]
              omega
      · rw [if_neg ht] at hx
        have := ih (i + 1) x hx
        simp only [List.length_cons]
        omega

theorem sentenceMatches_bound (l : List Char) :
    ∀ x ∈ sentenceMatches l, x < l.length := by
  intro x hx
  unfold sentenceMatches at hx
  cases l with
  | nil => simp at hx
  | cons c rest =>
      dsimp only at hx
      by_cases hc : isSentLower c = true
      · rw [if_pos hc] at hx
        rcases List.mem_cons.mp hx with hx | hx
        · simp [hx]
        · have := sentScan_bound rest 1 x hx
          simp only [List.length_cons]
          omega
      · rw [if_neg hc] at hx
        have := sentScan_bound (c :: rest) 0 x hx
        omega

theorem lastWordOf_matchesAt {l w : List Char} (h : lastWordOf l = some w) :
    ∃ p, matchesAt l w p = true := by
  obtain ⟨p, _, hwtw, _, _, _⟩ := lastWordOf_spec h
  refine ⟨p, ?_⟩
  subst hwtw
  simp [matchesAt, take_twLen]

theorem lastIndexAux_isSome (l w : List Char) (p : Nat)
    (hm : matchesAt l w p = true) :
    ∀ k, p ≤ k → ∃ j, lastIndexAux l w k = some j := by
  intro k
  induction k with
  | zero =>
      intro hp
      have hp0 : p = 0 := by omega
      subst hp0
      exact ⟨0, by unfold lastIndexAux; rw [if_pos hm]⟩
  | succ k ih =>
      intro hp
      unfold lastIndexAux
      by_cases hk : matchesAt l w (k + 1) = true
      · exact ⟨k + 1, by rw [if_pos hk]⟩
      · rw [if_neg hk]
        have hpk : p ≤ k := by
          rcases Nat.lt_or_ge p (k + 1) with h | h
          · omega
          · exact absurd ((by omega : p = k + 1) ▸ hm) hk
        exact ih hpk

theorem indexOfFrom_isSome (l w : List Char) (s0 i0 : Nat) (h0 : s0 ≤ i0)
    (hm : matchesAt l w i0 = true) (hle : i0 ≤ l.length) :
    ∃ j, indexOfFrom l w s0 = some j ∧ s0 ≤ j ∧ matchesAt l w j = true := by
  cases hf : indexOfFrom l w s0 with
  | none =>
      exfalso
      unfold indexOfFrom at hf
      rw [List.find?_eq_none] at hf
      have := hf i0 (List.mem_range.mpr (by omega))
      simp [h0, hm] at this
  | some j =>
      have hf' := hf
      unfold indexOfFrom at hf'
      have hp := List.find?_some hf'
      simp only [Bool.and_eq_true, decide_eq_true_eq] at hp
      exact ⟨j, rfl, hp.1, hp.2⟩

theorem getLineD_set_self (d : Document) (n : Nat) (v : List Char)
    (h : n < d.length) : getLineD (d.set n v) n = v := by
  simp [getLineD, List.getD_eq_getElem?_getD, List.getElem?_set, h]

theorem getLineD_issueReplace_len (s : EditorState) (n a b : Nat)
    (txt : List Char) (ha : a ≤ (getLineD s.doc n).length)
    (hb : b ≤ (getLineD s.doc n).length) (hab : a ≤ b)
    (ht : txt.length = b - a) :
    (getLineD (issueReplace s n a b txt).doc n).length
      = (getLineD s.doc n).length := by
  by_cases hn : n < s.doc.length
  · show (getLineD (s.doc.set n _) n).length = _
    rw [getLineD_set_self _ _ _ hn]
    exact length_replaceSeg _ _ _ _ ha hb hab ht
  · show (getLineD (s.doc.set n _) n).length = _
    rw [set_oob _ _ _ (by omega)]

theorem listItemMatch_occurrence {line word : List Char}
    (h : listItemMatch line = some word) :
    matchesAt line word 2 = true ∧ word ≠ [] := by
  unfold listItemMatch at h
  cases line with
  | nil => cases h
  | cons c0 t =>
      cases t with
      | nil => cases h
      | cons c1 rest =>
          dsimp only at h
          split at h
          · split at h
            · cases h
            · next hne =>
                injection h with h2
                subst h2
                constructor
                · simp [matchesAt, take_twLen]
                · intro he
                  rw [he] at hne
                  simp at hne
          · cases h

theorem numberedMatch_word_ne {t w : List Char} {dl : Nat}
    (h : numberedMatch t = some (w, dl)) : w ≠ [] := by
  unfold numberedMatch at h
  dsimp only at h
  split at h
  · cases h
  · split at h
    · split at h
      · cases h
      · split at h
        · cases h
        · next hne =>
            injection h with h2
            have hw := congrArg Prod.fst h2
            dsimp only at hw
            intro he
            rw [he] at hw
            rw [hw] at hne
            simp at hne
    · cases h

theorem matchesAt_mem {l w : List Char} {j k : Nat}
    (hm : matchesAt l w j = true) (hk : k < w.length) : w.getD k ' ' ∈ l := by
  have hwne : w ≠ [] := by
    intro he; rw [he] at hk; simp at hk
  have hb : j + w.length ≤ l.length := matchesAt_bound hm hwne
  rw [← matchesAt_getD hm hk]
  have hlt : j + k < l.length := by omega
  rw [List.getD_eq_getElem _ _ hlt]
  exact List.getElem_mem hlt

theorem lineLen_correctWord (s : EditorState) (line : List Char) (n : Nat)
    (stg : Settings) (hlen : (getLineD s.doc n).length = line.length) :
    (getLineD (correctWord s line n stg).doc n).length = line.length := by
  unfold correctWord
  split
  · exact hlen
  · next word hlw =>
      by_cases hexc : inExclusion stg word = true
      · rw [if_pos hexc]; exact hlen
      · rw [if_neg hexc]
        by_cases hsec : listSecondaryCond word = true
        · rw [if_pos hsec]
          dsimp only
          by_cases hprot : (isInProtectedBlockCall s
              ((lastIndexOfOpt line word).getD 0) n).1 = true
          · rw [if_pos hprot, protCall_snd_doc]
            exact hlen
          · rw [if_neg hprot]
            have h3 : 3 ≤ word.length := by
              have hs := hsec
              simp only [listSecondaryCond, Bool.and_eq_true,
                decide_eq_true_eq] at hs
              exact hs.1.1.1
            have hwne : word ≠ [] := by
              intro he; rw [he] at h3; simp at h3
            obtain ⟨p, hmp⟩ := lastWordOf_matchesAt hlw
            have hple := matchesAt_bound hmp hwne
            obtain ⟨j, hj⟩ := lastIndexAux_isSome line word p hmp line.length
              (by omega)
            have hjm := lastIndexAux_matches line word line.length j hj
            have hjb := matchesAt_bound hjm hwne
            unfold lastIndexOfOpt
            rw [hj, Option.getD_some]
            rw [getLineD_issueReplace_len _ _ _ _ _
              (by rw [protCall_snd_doc]; omega)
              (by rw [protCall_snd_doc]; omega) (by omega)
              (by simp only [toLowerStr, List.length_cons, List.length_nil]
                  omega)]
            rw [protCall_snd_doc]
            exact hlen
        · rw [if_neg hsec]; exact hlen

theorem lineLen_correctListItem (s : EditorState) (line : List Char) (n : Nat)
    (stg : Settings) (hss : ¬ 'ß' ∈ line)
    (hlen : (getLineD s.doc n).length = line.length) :
    (getLineD (correctListItem s line n stg).doc n).length = line.length := by
  unfold correctListItem
  split
  · exact hlen
  · next word hlm =>
      obtain ⟨hocc, hwne⟩ := listItemMatch_occurrence hlm
      have hob := matchesAt_bound hocc hwne
      have hwpos : 0 < word.length := List.length_pos.mpr hwne
      obtain ⟨j, hjf, _, hjm⟩ := indexOfFrom_isSome line word 0 2 (by omega)
        hocc (by omega)
      have hjb := matchesAt_bound hjm hwne
      have hw0 : word.getD 0 ' ' ∈ line := matchesAt_mem hjm hwpos
      have hw0ss : word.getD 0 ' ' ≠ 'ß' := by
        intro he; rw [he] at hw0; exact hss hw0
      have hup : (toUpperStr (word.getD 0 ' ')).length = 1 := toUpperStr_len hw0ss
      by_cases hlet : (!(isLetterCh (word.getD 0 ' '))) = true
      · rw [if_pos hlet]; exact hlen
      · rw [if_neg hlet]
        by_cases hexc : inExclusion stg word = true
        · rw [if_pos hexc]; exact hlen
        · rw [if_neg hexc]
          by_cases hch : (!(listPrimaryCond word || listSecondaryCond word)) = true
          · rw [if_pos hch]; exact hlen
          · rw [if_neg hch]
            dsimp only
            unfold indexOfD
            rw [hjf, Option.getD_some]
            by_cases hprot : (isInProtectedBlockCall s j n).1 = true
            · rw [if_pos hprot, protCall_snd_doc]; exact hlen
            · rw [if_neg hprot]
              have hrepl1 : (if listPrimaryCond word = true then
                  toUpperStr (word.getD 0 ' ') ++ word.drop 1
                  else word).length = word.length := by
                split
                · simp only [List.length_append, List.length_drop, hup]
                  omega
                · rfl
              have hrepl2 : (if listSecondaryCond word = true then
                  (if listPrimaryCond word = true then
                    toUpperStr (word.getD 0 ' ') ++ word.drop 1 else word).take 1
                    ++ toLowerStr ((if listPrimaryCond word = true then
                      toUpperStr (word.getD 0 ' ') ++ word.drop 1
                      else word).getD 1 ' ')
                    ++ (if listPrimaryCond word = true then
                      toUpperStr (word.getD 0 ' ') ++ word.drop 1
                      else word).drop 2
                  else (if listPrimaryCond word = true then
                    toUpperStr (word.getD 0 ' ') ++ word.drop 1
                    else word)).length = word.length := by
                split
                · next hsec =>
                    have h3 : 3 ≤ word.length := by
                      have hs := hsec
                      simp only [listSecondaryCond, Bool.and_eq_true,
                        decide_eq_true_eq] at hs
                      exact hs.1.1.1
                    simp only [List.length_append, List.length_take,
                      List.length_drop, toLowerStr, List.length_cons,
                      List.length_nil, hrepl1]
                    omega
                · exact hrepl1
              rw [getLineD_issueReplace_len _ _ _ _ _
                (by rw [protCall_snd_doc]; omega)
                (by rw [protCall_snd_doc]; omega) (by omega)
                (by rw [hrepl2]; omega)]
              rw [protCall_snd_doc]
              exact hlen

theorem lineLen_correctNumberedList (s : EditorState) (line : List Char)
    (n : Nat) (stg : Settings) (hss : ¬ 'ß' ∈ line)
    (hlen : (getLineD s.doc n).length = line.length) :
    (getLineD (correctNumberedList s line n stg).doc n).length = line.length := by
  unfold correctNumberedList
  split
  · exact hlen
  · next word dlen hnm =>
      split
      · exact hlen
      · next wordStart hfound =>
          have hwne : word ≠ [] := numberedMatch_word_ne hnm
          have hfound' := hfound
          unfold indexOfFrom at hfound'
          have hp := List.find?_some hfound'
          simp only [Bool.and_eq_true, decide_eq_true_eq] at hp
          have hjm := hp.2
          have hjb := matchesAt_bound hjm hwne
          have hwpos : 0 < word.length := List.length_pos.mpr hwne
          have hw0 : word.getD 0 ' ' ∈ line := matchesAt_mem hjm hwpos
          have hw0ss : word.getD 0 ' ' ≠ 'ß' := fun he => hss (he ▸ hw0)
          have hup := toUpperStr_len hw0ss
          by_cases hlet : (!(isLetterCh (word.getD 0 ' '))) = true
          · rw [if_pos hlet]; exact hlen
          · rw [if_neg hlet]
            by_cases hexc : inExclusion stg word = true
            · rw [if_pos hexc]; exact hlen
            · rw [if_neg hexc]
              dsimp only
              by_cases hprot : (isInProtectedBlockCall s wordStart n).1 = true
              · rw [if_pos hprot, protCall_snd_doc]; exact hlen
              · rw [if_neg hprot]
                by_cases hprim : listPrimaryCond word = true
                · rw [if_pos hprim]
                  rw [getLineD_issueReplace_len _ _ _ _ _
                    (by rw [protCall_snd_doc]; omega)
                    (by rw [protCall_snd_doc]; omega) (by omega)
                    (by simp only [List.length_append, List.length_drop, hup]
                        omega)]
                  rw [protCall_snd_doc]; exact hlen
                · rw [if_neg hprim, protCall_snd_doc]; exact hlen

theorem lineLen_sentApply (line : List Char) (n : Nat) (stg : Settings)
    (hss : ¬ 'ß' ∈ line) :
    ∀ (ids : List Nat) (s : EditorState),
      (∀ x ∈ ids, x < line.length) →
      (getLineD s.doc n).length = line.length →
      (getLineD (sentApply line n stg s ids).doc n).length = line.length := by
  intro ids
  induction ids with
  | nil => intro s _ hlen; exact hlen
  | cons idx rest ih =>
      intro s hb hlen
      have hidx : idx < line.length := hb idx (by simp)
      have hrest : ∀ x ∈ rest, x < line.length := fun x hx => hb x (by simp [hx])
      unfold sentApply
      dsimp only
      by_cases hprot : (isInProtectedBlockCall s idx n).1 = true
      · rw [if_pos hprot]
        exact ih _ hrest (by rw [protCall_snd_doc]; exact hlen)
      · rw [if_neg hprot]
        split
        · exact ih _ hrest (by rw [protCall_snd_doc]; exact hlen)
        · split
          · exact ih _ hrest (by rw [protCall_snd_doc]; exact hlen)
          · have hc : line.getD idx ' ' ∈ line := by
              rw [List.getD_eq_getElem _ _ hidx]
              exact List.getElem_mem hidx
            have hcss : line.getD idx ' ' ≠ 'ß' := fun he => hss (he ▸ hc)
            have hup := toUpperStr_len hcss
            apply ih _ hrest
            rw [getLineD_issueReplace_len _ _ _ _ _
              (by rw [protCall_snd_doc]; omega)
              (by rw [protCall_snd_doc]; omega) (by omega)
              (by rw [hup]; omega)]
            rw [protCall_snd_doc]; exact hlen

theorem lineLen_correctSentence (s : EditorState) (line : List Char) (n : Nat)
    (stg : Settings) (hss : ¬ 'ß' ∈ line)
    (hlen : (getLineD s.doc n).length = line.length) :
    (getLineD (correctSentence s line n stg).doc n).length = line.length :=
  lineLen_sentApply line n stg hss (sentenceMatches line) s
    (sentenceMatches_bound line) hlen

theorem lineLen_handle (s : EditorState) (cl cc : Nat) (we : Bool)
    (stg : Settings) (hss : ¬ 'ß' ∈ getLineD s.doc (targetLineNo cl we)) :
    (getLineD (handleEditorChange s cl cc we stg).doc
        (targetLineNo cl we)).length
      = (getLineD s.doc (targetLineNo cl we)).length := by
  by_cases hsup : s.suppress = true
  · rw [handle_suppressed s cl cc we stg hsup]
  · unfold handleEditorChange
    rw [if_neg hsup]
    dsimp only
    split
    · rfl
    · next fullLine hline =>
        have hfull : getLineD s.doc (targetLineNo cl we) = fullLine := by
          simp [getLineD, List.getD_eq_getElem?_getD, hline]
        have hss' : ¬ 'ß' ∈ fullLine := by rw [← hfull]; exact hss
        have hs0 : (getLineD
            ({ s with cacheSet := false, cacheVal := false }
              : EditorState).doc (targetLineNo cl we)).length
            = fullLine.length := congrArg List.length hfull
        by_cases hemp : fullLine.isEmpty = true
        · rw [if_pos hemp]
        · rw [if_neg hemp]
          by_cases htr : (!(we ||
              match (if we = true then fullLine
                else List.take cc fullLine).getLast? with
              | some c => TRIGGER_CHARS.contains c
              | none => false)) = true
          · rw [if_pos htr]
          · rw [if_neg htr]
            rw [hfull]
            by_cases hlist : stg.capitalizeListItem = true
            · rw [if_pos hlist]
              by_cases hbul : ((jsTrim fullLine).take 2 == str ("- ")) = true
              · rw [if_pos hbul]
                by_cases hsen : stg.capitalizeSentences = true
                · rw [if_pos hsen]
                  exact lineLen_correctSentence _ _ _ _ hss'
                    (lineLen_correctWord _ _ _ _
                      (lineLen_correctListItem _ _ _ _ hss' hs0))
                · rw [if_neg hsen]
                  exact lineLen_correctWord _ _ _ _
                    (lineLen_correctListItem _ _ _ _ hss' hs0)
              · rw [if_neg hbul]
                by_cases hnum : (numberedMatch (jsTrim fullLine)).isSome = true
                · rw [if_pos hnum]
                  by_cases hsen : stg.capitalizeSentences = true
                  · rw [if_pos hsen]
                    exact lineLen_correctSentence _ _ _ _ hss'
                      (lineLen_correctWord _ _ _ _
                        (lineLen_correctNumberedList _ _ _ _ hss' hs0))
                  · rw [if_neg hsen]
                    exact lineLen_correctWord _ _ _ _
                      (lineLen_correctNumberedList _ _ _ _ hss' hs0)
                · rw [if_neg hnum]
                  by_cases hsen : stg.capitalizeSentences = true
                  · rw [if_pos hsen]
                    exact lineLen_correctSentence _ _ _ _ hss'
                      (lineLen_correctWord _ _ _ _ hs0)
                  · rw [if_neg hsen]
                    exact lineLen_correctWord _ _ _ _ hs0
            · rw [if_neg hlist]
              by_cases hsen : stg.capitalizeSentences = true
              · rw [if_pos hsen]
                exact lineLen_correctSentence _ _ _ _ hss'
                  (lineLen_correctWord _ _ _ _ hs0)
              · rw [if_neg hsen]
                exact lineLen_correctWord _ _ _ _ hs0

/-- C10, amended: every replacement targets a range inside the single target
line, so a pass never changes the number of lines and never touches any other
line; and as long as the target line does not contain the sharp s — the one
character of the engine's repertoire whose JS uppercase is two characters —
the target line's length is also preserved.  (The counterexample shows the
sharp s breaking the length clause.) -/
theorem C10_single_line_frame :
    ∀ (s : EditorState) (cl cc : Nat) (we : Bool) (stg : Settings),
      (handleEditorChange s cl cc we stg).doc.length = s.doc.length ∧
      (∀ j, j ≠ targetLineNo cl we →
        (handleEditorChange s cl cc we stg).doc[j]? = s.doc[j]?) ∧
      (¬ 'ß' ∈ getLineD s.doc (targetLineNo cl we) →
        (getLineD (handleEditorChange s cl cc we stg).doc
            (targetLineNo cl we)).length
          = (getLineD s.doc (targetLineNo cl we)).length) := by
  intro s cl cc we stg
  obtain ⟨h1, h2⟩ := frameOK_handle s cl cc we stg
  exact ⟨h1, h2, fun hss => lineLen_handle s cl cc we stg hss⟩

/-- C10, witness: a pass that rewrites `HAllo ` on line 1 leaves line 0
untouched and keeps line 1 six characters long. -/
theorem C10_single_line_frame_witness :
    (handleEditorChange (initState [str ("x"), str ("HAllo ")]) 1 6 false
        DEFAULT_SETTINGS).doc[0]? = some (str ("x")) ∧
    (getLineD (handleEditorChange (initState [str ("x"), str ("HAllo ")]) 1 6
        false DEFAULT_SETTINGS).doc 1).length = 6 := by
  have ht : targetLineNo 1 false = 1 := by decide
  constructor
  · have h := (C10_single_line_frame (initState [str ("x"), str ("HAllo ")])
      1 6 false DEFAULT_SETTINGS).2.1 0 (by decide)
    rw [h]
    decide
  · have h := (C10_single_line_frame (initState [str ("x"), str ("HAllo ")])
      1 6 false DEFAULT_SETTINGS).2.2 (by decide)
    rw [ht] at h
    rw [h]
    decide

theorem q_spec (l : List Char) :
    ∀ m, wqIndex l ≤ m → m < l.length →
      isJsWordCh (l.getD m ' ') = false := by
  intro m hq hm
  unfold wqIndex at hq
  have htw := twLen_le (fun c => !isJsWordCh c) l.reverse
  rw [List.length_reverse] at htw
  have hk : l.length - 1 - m <
      (l.reverse.takeWhile (fun c => !isJsWordCh c)).length := by omega
  have h1 := tw_getD_true (fun c => !isJsWordCh c) l.reverse ' '
    (l.length - 1 - m) hk
  rw [getD_reverse (by omega) ' '] at h1
  have hmm : l.length - 1 - (l.length - 1 - m) = m := by omega
  rw [hmm] at h1
  simpa using h1

theorem runEnd_stop (l : List Char) (p : Nat) (h : runEndAt l p < l.length) :
    isWordCh (l.getD (runEndAt l p) ' ') = false := by
  unfold runEndAt at h ⊢
  have hlt : ((l.drop p).takeWhile isWordCh).length < (l.drop p).length := by
    simp only [List.length_drop]
    omega
  have := tw_stop_false isWordCh (l.drop p) ' ' hlt
  rwa [getD_drop] at this

theorem matchesAt_span (l w : List Char) (p : Nat)
    (hw : w = (l.drop p).takeWhile isWordCh) : matchesAt l w p = true := by
  subst hw
  simp [matchesAt, take_twLen]

theorem replaceSeg_set (l : List Char) (a : Nat) (c : Char)
    (h : a < l.length) : replaceSeg l a (a + 1) [c] = l.set a c := by
  rw [List.set_eq_take_append_cons_drop, if_pos h]
  unfold replaceSeg
  simp

theorem doc_set_getElem?_self {α : Type} (l : List α) (n : Nat) (v : α)
    (h : l[n]? = some v) : l.set n v = l := by
  induction l generalizing n with
  | nil => simp at h
  | cons a t ih =>
      cases n with
      | zero =>
          simp only [List.getElem?_cons_zero] at h
          injection h with h2
          rw [h2]
          rfl
      | succ m =>
          simp only [List.getElem?_cons_succ] at h
          simp only [List.set]
          rw [ih m h]

theorem trigger_chars_not_upper {c : Char}
    (h : TRIGGER_CHARS.contains c = true) : isAsciiUpper c = false := by
  simp only [TRIGGER_CHARS] at h
  simp at h
  rcases h with rfl | rfl | rfl | rfl | rfl | rfl | rfl | rfl | rfl | rfl |
    rfl | rfl | rfl <;> decide

theorem wordch_upper_ascii {c : Char} (ha : c.toNat < 128)
    (hw : isWordCh c = true) (hu : jsEqUpper c = true) :
    isAsciiUpper c = true ∨ c = '\'' := by
  unfold isWordCh isLetterCh at hw
  simp only [Bool.or_eq_true, decide_eq_true_eq] at hw
  rcases hw with ((((((((hw | hw) | hw) | hw) | hw) | hw) | hw) | hw) | hw) | hw
  · exact Or.inl hw
  · exfalso
    unfold jsEqUpper toUpperStr at hu
    rw [if_pos hw] at hu
    have hlo : 97 ≤ c.toNat ∧ c.toNat ≤ 122 := by
      simpa [isAsciiLower] using hw
    have heq : Char.ofNat (c.toNat - 32) = c := by
      have := hu
      simpa using this
    have := congrArg Char.toNat heq
    rw [toNat_ofNat_small _ (by omega)] at this
    omega
  all_goals first
    | (exfalso; subst hw; revert ha; decide)
    | (subst hw; exact Or.inr rfl)

theorem upper_lower_facts {c : Char} (h : isAsciiUpper c = true) :
    isAsciiLower (toLowerChar c) = true ∧ toLowerChar c ≠ c ∧
    isWordCh (toLowerChar c) = true ∧ isJsWordCh (toLowerChar c) = true ∧
    isJsWordCh c = true ∧ jsEqUpper (toLowerChar c) = false := by
  have hr : 65 ≤ c.toNat ∧ c.toNat ≤ 90 := by
    simpa [isAsciiUpper, Bool.and_eq_true, decide_eq_true_eq] using h
  have hlc : toLowerChar c = Char.ofNat (c.toNat + 32) := by
    unfold toLowerChar
    rw [if_pos h]
  have htn : (toLowerChar c).toNat = c.toNat + 32 := by
    rw [hlc, toNat_ofNat_small _ (by omega)]
  have hlow : isAsciiLower (toLowerChar c) = true := by
    simp only [isAsciiLower, Bool.and_eq_true, decide_eq_true_eq, htn]
    omega
  refine ⟨hlow, ?_, ?_, ?_, ?_, ?_⟩
  · intro he
    have := congrArg Char.toNat he
    omega
  · simp [isWordCh, isLetterCh, hlow]
  · simp [isJsWordCh, hlow]
  · simp [isJsWordCh, h]
  · unfold jsEqUpper toUpperStr
    rw [if_pos hlow]
    have hne : Char.ofNat ((toLowerChar c).toNat - 32) ≠ toLowerChar c := by
      intro he
      have := congrArg Char.toNat he
      rw [toNat_ofNat_small _ (by omega)] at this
      omega
    simp [hne]

theorem no_occurrence_above (l w : List Char) (p e : Nat)
    (hw : w = (l.drop p).takeWhile isWordCh) (he : e = runEndAt l p)
    (hq : wqIndex l ≤ e) (hp : p < l.length) (h3 : 3 ≤ w.length)
    (hjw : isJsWordCh (w.getD 1 ' ') = true) :
    ∀ j, p < j → matchesAt l w j = false := by
  intro j hj
  by_contra hm'
  have hm : matchesAt l w j = true := by
    cases hmb : matchesAt l w j
    · exact absurd hmb hm'
    · rfl
  have hwne : w ≠ [] := by
    intro hne; rw [hne] at h3; simp at h3
  have hb := matchesAt_bound hm hwne
  have hwlen : w.length = e - p := by
    rw [he]
    unfold runEndAt
    rw [hw]
    omega
  have hele : e ≤ l.length := by
    rw [he]
    unfold runEndAt
    have := twLen_le isWordCh (l.drop p)
    simp only [List.length_drop] at this
    omega
  by_cases hje : j < e
  · have hnel : e < l.length := by omega
    have hstop : isWordCh (l.getD e ' ') = false := by
      rw [he]
      exact runEnd_stop l p (by omega)
    have hk : e - j < w.length := by omega
    have hgd := matchesAt_getD hm hk
    have hjk : j + (e - j) = e := by omega
    rw [hjk] at hgd
    have hwc := (word_getD_of_takeWhile hw hk).2
    rw [← hgd] at hwc
    rw [hwc] at hstop
    cases hstop
  · have hm1 : j + 1 < l.length := by omega
    have hq1 : wqIndex l ≤ j + 1 := by omega
    have hjs := q_spec l (j + 1) hq1 hm1
    have hgd := matchesAt_getD hm (show 1 < w.length by omega)
    rw [← hgd] at hjw
    rw [hjw] at hjs
    cases hjs

theorem wqIndex_set (l : List Char) (i : Nat) (c : Char) (hi : i < l.length)
    (hJ : isJsWordCh c = isJsWordCh (l.getD i ' ')) :
    wqIndex (l.set i c) = wqIndex l := by
  unfold wqIndex
  rw [List.length_set, reverse_set l i c hi]
  rw [tw_len_set (fun x => !isJsWordCh x) l.reverse (l.length - 1 - i) c
    (by simp only [List.length_reverse]; omega) ?_]
  have harr : l.length - 1 - (l.length - 1 - i) = i := by omega
  rw [getD_reverse (by omega) ' ', harr]
  simp only [hJ]

theorem runEndAt_set (l : List Char) (i : Nat) (c : Char) (hi : i < l.length)
    (hW : isWordCh c = isWordCh (l.getD i ' ')) (p : Nat) :
    runEndAt (l.set i c) p = runEndAt l p := by
  unfold runEndAt
  rw [List.drop_set]
  by_cases hip : i < p
  · rw [if_pos hip]
  · rw [if_neg hip]
    congr 1
    apply tw_len_set isWordCh (l.drop p) (i - p) c
    · simp only [List.length_drop]
      omega
    · rw [getD_drop]
      have harr : p + (i - p) = i := by omega
      rw [harr]
      exact hW

theorem lastWordSpan_set (l : List Char) (i : Nat) (c : Char)
    (hi : i < l.length)
    (hW : isWordCh c = isWordCh (l.getD i ' '))
    (hJ : isJsWordCh c = isJsWordCh (l.getD i ' ')) :
    lastWordSpan (l.set i c) = lastWordSpan l := by
  unfold lastWordSpan
  have hq := wqIndex_set l i c hi hJ
  have hrun := runEndAt_set l i c hi hW
  rw [List.length_set]
  have hfind : (List.range l.length).find?
      (fun p => isWordCh ((l.set i c).getD p ' ') &&
        decide (wqIndex (l.set i c) ≤ runEndAt (l.set i c) p))
      = (List.range l.length).find?
      (fun p => isWordCh (l.getD p ' ') &&
        decide (wqIndex l ≤ runEndAt l p)) := by
    apply find?_congr_list
    intro x _
    rw [hq, hrun x]
    by_cases hxi : i = x
    · subst hxi
      rw [getD_set_same hi, hW]
    · rw [getD_set_other hxi]
  rw [hfind]
  cases hres : (List.range l.length).find?
      (fun p => isWordCh (l.getD p ' ') &&
        decide (wqIndex l ≤ runEndAt l p)) with
  | none => rfl
  | some p =>
      dsimp only
      rw [hrun p]

theorem getLast?_take_set (l : List Char) (cc i : Nat) (c : Char)
    (h : i + 1 ≠ min cc l.length) :
    ((l.set i c).take cc).getLast? = (l.take cc).getLast? := by
  by_cases hm0 : min cc l.length = 0
  · have h1 : (l.set i c).take cc = [] := by
      apply List.length_eq_zero.mp
      rw [List.length_take, List.length_set]
      omega
    have h2 : l.take cc = [] := by
      apply List.length_eq_zero.mp
      rw [List.length_take]
      omega
    rw [h1, h2]
  · rw [take_set]
    by_cases hic : i < cc
    · rw [if_pos hic]
      rw [List.getLast?_eq_getElem?, List.getLast?_eq_getElem?,
        List.length_set]
      rw [List.getElem?_set]
      rw [if_neg (by rw [List.length_take]; omega)]
    · rw [if_neg hic]

theorem getLast?_take_getD (l : List Char) (cc : Nat) (tc : Char)
    (h : (l.take cc).getLast? = some tc) :
    tc = l.getD (min cc l.length - 1) ' ' ∧ 1 ≤ min cc l.length := by
  rw [List.getLast?_eq_getElem?] at h
  have hlen : (l.take cc).length = min cc l.length := List.length_take ..
  by_cases hm0 : min cc l.length = 0
  · exfalso
    rw [List.getElem?_eq_none (by omega)] at h
    cases h
  · have hmin : 1 ≤ min cc l.length := by omega
    refine ⟨?_, hmin⟩
    rw [hlen] at h
    rw [List.getElem?_take, if_pos (by omega)] at h
    have hidx : min cc l.length - 1 < l.length := by omega
    rw [List.getElem?_eq_getElem hidx] at h
    injection h with h2
    rw [List.getD_eq_getElem _ _ hidx, h2]

theorem protCall_fresh (d : Document) (pos n : Nat) (s : EditorState)
    (hc : s.cacheSet = false) (hd : s.doc = d) :
    isInProtectedBlockCall s pos n
      = (computeProtected d n pos,
          { s with
            cacheSet := true
            cacheVal := computeProtected d n pos }) := by
  unfold isInProtectedBlockCall
  rw [hc]
  rw [hd]
  simp

theorem word_pass_cases (d : Document) (cl cc : Nat) (we : Bool)
    (stg : Settings) (hli : stg.capitalizeListItem = false)
    (hse : stg.capitalizeSentences = false) :
    passDoc d cl cc we stg = d ∨
    ∃ (fullLine word : List Char) (j : Nat),
      d[targetLineNo cl we]? = some fullLine ∧
      fullLine.isEmpty = false ∧
      (we || (match (fullLine.take cc).getLast? with
        | some c => TRIGGER_CHARS.contains c
        | none => false)) = true ∧
      lastWordOf fullLine = some word ∧
      inExclusion stg word = false ∧
      listSecondaryCond word = true ∧
      lastIndexOfOpt fullLine word = some j ∧
      passDoc d cl cc we stg
        = d.set (targetLineNo cl we)
            (fullLine.set (j + 1) (toLowerChar (word.getD 1 ' '))) := by
  unfold passDoc handleEditorChange initState
  rw [if_neg (by simp)]
  dsimp only
  cases hline : d[targetLineNo cl we]? with
  | none => exact Or.inl rfl
  | some fullLine =>
      dsimp only
      by_cases hemp : fullLine.isEmpty = true
      · rw [if_pos hemp]; exact Or.inl rfl
      · rw [if_neg hemp]
        by_cases htr : (!(we || (match (if we = true then fullLine
            else fullLine.take cc).getLast? with
            | some c => TRIGGER_CHARS.contains c
            | none => false))) = true
        · rw [if_pos htr]; exact Or.inl rfl
        · rw [if_neg htr]
          rw [hli, hse]
          simp only [Bool.false_eq_true, if_false]
          unfold correctWord
          cases hlw : lastWordOf fullLine with
          | none => exact Or.inl rfl
          | some word =>
              dsimp only
              by_cases hexc : inExclusion stg word = true
              · rw [if_pos hexc]; exact Or.inl rfl
              · rw [if_neg hexc]
                by_cases hsec : listSecondaryCond word = true
                · rw [if_pos hsec]
                  have h3 : 3 ≤ word.length := by
                    have hs := hsec
                    simp only [listSecondaryCond, Bool.and_eq_true,
                      decide_eq_true_eq] at hs
                    exact hs.1.1.1
                  have hwne : word ≠ [] := by
                    intro he; rw [he] at h3; simp at h3
                  obtain ⟨p0, hm0⟩ := lastWordOf_matchesAt hlw
                  have hb0 := matchesAt_bound hm0 hwne
                  obtain ⟨j, hj⟩ := lastIndexAux_isSome fullLine word p0 hm0
                    fullLine.length (by omega)
                  have hjm := lastIndexAux_matches fullLine word
                    fullLine.length j hj
                  have hjb := matchesAt_bound hjm hwne
                  unfold lastIndexOfOpt
                  rw [hj, Option.getD_some]
                  rw [protCall_fresh d j (targetLineNo cl we) _ rfl rfl]
                  dsimp only
                  by_cases hpv : computeProtected d (targetLineNo cl we) j = true
                  · rw [if_pos hpv]; exact Or.inl rfl
                  · rw [if_neg hpv]
                    refine Or.inr ⟨fullLine, word, j, rfl, by simpa using hemp,
                      ?_, hlw, by simpa using hexc, hsec, hj, ?_⟩
                    · cases we
                      · simp only [Bool.false_or]
                        simp only [Bool.not_eq_true', Bool.false_or,
                          Bool.not_eq_false] at htr
                        exact htr
                      · simp
                    · have hfl : getLineD d (targetLineNo cl we) = fullLine := by
                        simp [getLineD, List.getD_eq_getElem?_getD, hline]
                      show ((⟨d, false, false, false, 0⟩ :
                          EditorState).doc.set (targetLineNo cl we) _) = _
                      rw [show ((⟨d, false, false, false, 0⟩ :
                          EditorState).doc) = d from rfl]
                      rw [hfl]
                      simp only [toLowerStr]
                      rw [replaceSeg_set _ _ _ (by omega)]
                · rw [if_neg hsec]; exact Or.inl rfl

/-- C8, counterexample: the full pass is not idempotent.  On `- hAllo` with
list-capitalization enabled, the first pass capitalizes the first letter
(producing `- HAllo`, a fresh double-capital the same pass does not repair,
since its rules read the line content captured at entry), and a second pass
produces the different line `- Hallo`. -/
theorem C8_counterexample :
    passDoc (passDoc [str ("- hAllo"), []] 1 0 true stListOn) 1 0 true stListOn
      ≠ passDoc [str ("- hAllo"), []] 1 0 true stListOn ∧
    passDoc [str ("- hAllo"), []] 1 0 true stListOn = [str ("- HAllo"), []] ∧
    passDoc (passDoc [str ("- hAllo"), []] 1 0 true stListOn) 1 0 true stListOn
      = [str ("- Hallo"), []] := by
  refine ⟨?_, ?_, ?_⟩ <;> decide

/-- C8, amended: (a) the word rule is a no-op on a word whose second character
already equals its lowercase and not its uppercase (e.g. `Hallo`), stated via
the code's own test `word[1] === word[1].toUpperCase()` failing; (b) with
list- and sentence-capitalization disabled — so that a triggered pass is the
word rule alone — and an all-ASCII target line, running a second full pass on
the result of a first pass reproduces that result.  With either optional rule
enabled, idempotence fails (see the counterexample). -/
theorem C8_word_rule_idempotence :
    (∀ (s : EditorState) (line : List Char) (lineNo : Nat) (stg : Settings)
        (word : List Char),
      lastWordOf line = some word → jsEqUpper (word.getD 1 ' ') = false →
      correctWord s line lineNo stg = s) ∧
    (∀ (d : Document) (cl cc : Nat) (we : Bool) (stg : Settings),
      stg.capitalizeListItem = false → stg.capitalizeSentences = false →
      (∀ c ∈ getLineD d (targetLineNo cl we), c.toNat < 128) →
      passDoc (passDoc d cl cc we stg) cl cc we stg
        = passDoc d cl cc we stg) := by
  constructor
  · intro s line lineNo stg word hlw hup
    unfold correctWord
    rw [hlw]
    dsimp only
    by_cases hexc : inExclusion stg word = true
    · rw [if_pos hexc]
    · rw [if_neg hexc]
      have hsec : listSecondaryCond word = false := by
        unfold listSecondaryCond
        rw [hup]
        simp
      rw [hsec]
      simp
  · intro d cl cc we stg hli hse hascii
    by_cases hD : passDoc d cl cc we stg = d
    · rw [hD]
      exact hD
    · rcases word_pass_cases d cl cc we stg hli hse with hE |
        ⟨fullLine, word, j, hline, hemp, htr, hlw, hexc, hsec, hj, hE⟩
      · exact absurd hE hD
      · have hfl : getLineD d (targetLineNo cl we) = fullLine := by
          simp [getLineD, List.getD_eq_getElem?_getD, hline]
        have hdl : targetLineNo cl we < d.length := by
          by_contra hc
          rw [List.getElem?_eq_none (by omega)] at hline
          cases hline
        rw [hfl] at hascii
        obtain ⟨p, hspan, hwtw, hwc0, hq, hp⟩ := lastWordOf_spec hlw
        have h3 : 3 ≤ word.length := by
          have hs := hsec
          simp only [listSecondaryCond, Bool.and_eq_true,
            decide_eq_true_eq] at hs
          exact hs.1.1.1
        have hup1 : jsEqUpper (word.getD 1 ' ') = true := by
          have hs := hsec
          simp only [listSecondaryCond, Bool.and_eq_true,
            decide_eq_true_eq] at hs
          exact hs.1.2
        have hwne : word ≠ [] := by
          intro he; rw [he] at h3; simp at h3
        have hj' := hj
        unfold lastIndexOfOpt at hj'
        have hjm := lastIndexAux_matches fullLine word fullLine.length j hj'
        have hjb := matchesAt_bound hjm hwne
        have hw1 : fullLine.getD (j + 1) ' ' = word.getD 1 ' ' := by
          have := matchesAt_getD hjm (show 1 < word.length by omega)
          simpa using this
        have hwch1 : isWordCh (word.getD 1 ' ') = true :=
          (word_getD_of_takeWhile hwtw (show 1 < word.length by omega)).2
        have hascii1 : (word.getD 1 ' ').toNat < 128 :=
          hascii _ (matchesAt_mem hjm (show 1 < word.length by omega))
        rcases wordch_upper_ascii hascii1 hwch1 hup1 with hcase | hcase
        · -- second character is an uppercase ASCII letter
          obtain ⟨hlow, hneq, hwcl, hjwl, hjw1, hjequpf⟩ :=
            upper_lower_facts hcase
          have hmp := matchesAt_span fullLine word p hwtw
          have hpb := matchesAt_bound hmp hwne
          have hnocc := no_occurrence_above fullLine word p
            (runEndAt fullLine p) hwtw rfl hq hp h3 hjw1
          have hlio : lastIndexOfOpt fullLine word = some p := by
            unfold lastIndexOfOpt
            exact lastIndexAux_eq fullLine word p hmp fullLine.length
              (by omega) (fun j' hj1 _ => hnocc j' hj1)
          have hjp : j = p := by
            rw [hlio] at hj
            injection hj with h2
            exact h2.symm
          subst hjp
          have hwlen : runEndAt fullLine j - j = word.length := by
            have h2 : word.length
                = ((fullLine.drop j).takeWhile isWordCh).length := by
              rw [hwtw]
            unfold runEndAt
            omega
          have hplen : j + 1 < fullLine.length := by omega
          have hlwset : lastWordOf
              (fullLine.set (j + 1) (toLowerChar (word.getD 1 ' ')))
              = some (word.set 1 (toLowerChar (word.getD 1 ' '))) := by
            unfold lastWordOf
            rw [lastWordSpan_set fullLine (j + 1) _ hplen
              (by rw [hw1, hwcl, hwch1]) (by rw [hw1, hjwl, hjw1]), hspan]
            simp only [Option.map_some']
            congr 1
            rw [List.drop_set, if_neg (by omega)]
            have h1 : j + 1 - j = 1 := by omega
            rw [h1]
            rw [take_set, if_pos (by omega)]
            congr 1
            rw [hwtw]
            have h2 : runEndAt fullLine j - j
                = ((fullLine.drop j).takeWhile isWordCh).length := by
              unfold runEndAt
              omega
            rw [h2, take_twLen]
          have hsecset : listSecondaryCond
              (word.set 1 (toLowerChar (word.getD 1 ' '))) = false := by
            unfold listSecondaryCond
            rw [getD_set_same (by omega), hjequpf]
            simp
          rcases word_pass_cases
              (d.set (targetLineNo cl we)
                (fullLine.set (j + 1) (toLowerChar (word.getD 1 ' '))))
              cl cc we stg hli hse with hE2 |
            ⟨f2, w2, j2, hline2, _, _, hlw2, _, hsec2, _, _⟩
          · rw [hE]
            exact hE2
          · exfalso
            have hline2' : (d.set (targetLineNo cl we)
                (fullLine.set (j + 1) (toLowerChar (word.getD 1 ' '))))[
                  targetLineNo cl we]?
                = some (fullLine.set (j + 1)
                    (toLowerChar (word.getD 1 ' '))) := by
              rw [List.getElem?_set]
              simp [hdl]
            rw [hline2'] at hline2
            injection hline2 with hf2
            subst hf2
            rw [hlwset] at hlw2
            injection hlw2 with hw2
            rw [← hw2] at hsec2
            rw [hsecset] at hsec2
            cases hsec2
        · -- second character is the apostrophe: the replacement is invisible
          exfalso
          apply hD
          rw [hE]
          have hlc : toLowerChar (word.getD 1 ' ') = word.getD 1 ' ' := by
            rw [hcase]
            decide
          rw [hlc, ← hw1]
          rw [set_getD_self fullLine (j + 1) ' ' (by omega)]
          exact doc_set_getElem?_self d _ _ hline

/-- C8, witness: the word rule leaves `Hallo ` unchanged, and the word-only
pass on `HAllo ` is idempotent. -/
theorem C8_word_rule_idempotence_witness :
    correctWord (initState [str ("Hallo ")]) (str ("Hallo ")) 0
        DEFAULT_SETTINGS = initState [str ("Hallo ")] ∧
    passDoc (passDoc [str ("HAllo ")] 0 6 false DEFAULT_SETTINGS) 0 6 false
        DEFAULT_SETTINGS
      = passDoc [str ("HAllo ")] 0 6 false DEFAULT_SETTINGS := by
  constructor
  · exact C8_word_rule_idempotence.1 (initState [str ("Hallo ")])
      (str ("Hallo ")) 0 DEFAULT_SETTINGS (str ("Hallo")) (by decide)
      (by decide)
  · exact C8_word_rule_idempotence.2 [str ("HAllo ")] 0 6 false
      DEFAULT_SETTINGS rfl rfl (by decide)
